import Mathlib

/-!
Verification of the TownGeneratorOS core against its specification.

The Python sources under `src/town_generator/` are shallowly embedded:
Python floats become exact rationals (`ℚ`), mutable lists become pure
lists with explicit state threading, raising code returns `Except`, and
transcendental library functions (`math.sqrt`, `math.cos`, `math.sin`,
`math.pow`) are abstracted as oracle parameters since their float values
are not rational; every theorem quantifies over these oracles, and
counterexamples instantiate them with values that agree with the real
functions at every point where they are applied.
-/

set_option maxRecDepth 100000

namespace TownGen

section

attribute [local semireducible] Rat.inv Rat.mul Rat.add Rat.sub Rat.ofScientific

/-- 2D point, embedding `Point` from `town_generator/point.py`.
Coordinates are exact rationals standing for the Python floats. -/
structure Pt where
  x : ℚ
  y : ℚ
deriving DecidableEq, Repr, Inhabited

/-- The tolerance `1e-10` used by `Point.__eq__` and `intersect_lines`. -/
def ptEps : ℚ := 1 / 10 ^ 10

/-- `Point.__eq__` (point.py line 14): coordinatewise closeness within 1e-10. -/
def ptEqB (a b : Pt) : Bool :=
  (|a.x - b.x| < ptEps : Bool) && (|a.y - b.y| < ptEps : Bool)

/-- Python `v in list_of_points` membership, which goes through `Point.__eq__`. -/
def memPt (v : Pt) (l : List Pt) : Bool := l.any fun w => ptEqB w v

/-- `Point.__add__`. -/
def Pt.add (a b : Pt) : Pt := ⟨a.x + b.x, a.y + b.y⟩

/-- `Point.__sub__`. -/
def Pt.sub (a b : Pt) : Pt := ⟨a.x - b.x, a.y - b.y⟩

/-- `Point.__mul__` by a scalar. -/
def Pt.smul (a : Pt) (k : ℚ) : Pt := ⟨a.x * k, a.y * k⟩

/-- `Point.rotate90`: rotate 90 degrees counterclockwise. -/
def Pt.rot90 (a : Pt) : Pt := ⟨-a.y, a.x⟩

/-- `Point.dot`. -/
def Pt.dot (a b : Pt) : ℚ := a.x * b.x + a.y * b.y

/-- `cross` from math_utils.py. -/
def cross (x1 y1 x2 y2 : ℚ) : ℚ := x1 * y2 - y1 * x2

/-- `scalar` from math_utils.py. -/
def scalarQ (x1 y1 x2 y2 : ℚ) : ℚ := x1 * x2 + y1 * y2

/-- `interpolate` from math_utils.py. -/
def interpPt (p1 p2 : Pt) (t : ℚ) : Pt :=
  ⟨p1.x + (p2.x - p1.x) * t, p1.y + (p2.y - p1.y) * t⟩

/-- `intersect_lines` from math_utils.py, transcribed exactly as written in
the Python source, including the `1e-10` parallel threshold, the sign of
`t2` as it appears there, and the near-vertical branch for `t1`.  (Note:
the Haxe original computes `t2` with the opposite sign; this transcription
keeps the Python source's formula, which is what the theorems below are
about.) -/
def intersectLines (x1 y1 dx1 dy1 x2 y2 dx2 dy2 : ℚ) : Option (ℚ × ℚ) :=
  let denom := dx1 * dy2 - dy1 * dx2
  if |denom| < ptEps then none
  else
    let t2 := ((x1 - x2) * dy1 - (y1 - y2) * dx1) / denom
    let t1 := if |dx1| < ptEps
      then ((x2 - x1) * dx2 + (y2 - y1) * dy2) / (-denom)
      else (x2 + t2 * dx2 - x1) / dx1
    some (t1, t2)

/-- A polygon is its ordered vertex list (polygon.py `Polygon.vertices`). -/
abbrev Poly := List Pt

/-- Cyclic vertex access `self.vertices[i % length]` as used throughout
polygon.py (`vertices[(i + 1) % length]` and the like). -/
def vAt (p : Poly) (i : ℕ) : Pt := p.getD (i % p.length) default

/-- Python slice `l[a:b]`. -/
def pySlice (l : List Pt) (a b : ℕ) : List Pt := (l.take b).drop a

/-- The shoelace sum of `Polygon.square` (polygon.py lines 62-72) before
taking the absolute value. -/
def signedSum (p : Poly) : ℚ :=
  (List.range p.length).foldl
    (fun s i => s + ((vAt p i).x * (vAt p (i + 1)).y - (vAt p (i + 1)).x * (vAt p i).y)) 0

/-- `Polygon.square` (polygon.py lines 62-72): `abs(s) * 0.5`, and `0.0`
for fewer than three vertices. -/
def Polygon.square (p : Poly) : ℚ :=
  if p.length < 3 then 0 else |signedSum p| * (1 / 2)

/-- `Polygon.index_of` (polygon.py lines 51-56); `none` models the `-1`
result. -/
def indexOfPt (p : Poly) (v : Pt) : Option ℕ :=
  p.findIdx? fun w => ptEqB w v

/-- `Polygon.next` (polygon.py lines 138-143). -/
def nextPt (p : Poly) (v : Pt) : Option Pt :=
  match indexOfPt p v with
  | none => none
  | some i => some (vAt p (i + 1))

/-- `Polygon.vector` (polygon.py lines 152-157): `next(v) - v`, or the zero
point when `v` is not found. -/
def vectorOf (p : Poly) (v : Pt) : Pt :=
  match nextPt p v with
  | none => ⟨0, 0⟩
  | some nv => nv.sub v

/-- `Polygon.vectori` (polygon.py lines 499-505). -/
def vectori (p : Poly) (i : ℕ) : Pt :=
  if i < p.length then (vAt p (i + 1)).sub (vAt p i) else ⟨0, 0⟩

/-- Accumulator of the crossing scan in `Polygon.cut` (polygon.py lines
446-468): the running `count`, `edge1`, `ratio1`, `edge2`, `ratio2`. -/
structure CutScan where
  count : ℕ
  edge1 : ℕ
  rat1 : ℚ
  edge2 : ℕ
  rat2 : ℚ
deriving DecidableEq, Repr

/-- One iteration of the crossing scan of `Polygon.cut`: intersect the cut
line with edge `i` and record the first two hits whose edge parameter `t.y`
lies in `[0, 1]`. -/
def cutScanStep (p : Poly) (x1 y1 dx1 dy1 : ℚ) (acc : CutScan) (i : ℕ) : CutScan :=
  let v0 := vAt p i
  let v1 := vAt p (i + 1)
  match intersectLines x1 y1 dx1 dy1 v0.x v0.y (v1.x - v0.x) (v1.y - v0.y) with
  | none => acc
  | some t =>
    if 0 ≤ t.2 ∧ t.2 ≤ 1 then
      if acc.count = 0 then ⟨1, i, t.1, acc.edge2, acc.rat2⟩
      else if acc.count = 1 then ⟨2, acc.edge1, acc.rat1, i, t.1⟩
      else { acc with count := acc.count + 1 }
    else acc

/-- The full crossing scan of `Polygon.cut` over all edges. -/
def cutScanAll (p : Poly) (p1 p2 : Pt) : CutScan :=
  (List.range p.length).foldl (cutScanStep p p1.x p1.y (p2.x - p1.x) (p2.y - p1.y)) ⟨0, 0, 0, 0, 0⟩

/-- Oracle bundle for the float library functions used by the geometry
code: `math.sqrt` (via `Point.length`/`distance`), `math.cos`, `math.sin`,
and `math.pow(2, -)`.  Their float results are abstracted since they are
irrational in general; theorems hold for every oracle. -/
structure RO where
  sqrtF : ℚ → ℚ
  cosF : ℚ → ℚ
  sinF : ℚ → ℚ
  pow2F : ℚ → ℚ

/-- A concrete oracle used for evaluations: identity "square root" (only
ever used inside comparisons where real `sqrt` is monotone), and
`cos 0 = 1`, `sin 0 = 0`, which are the true values at the only angles at
which the counterexamples call them. -/
def roId : RO := ⟨id, fun _ => 1, fun _ => 0, fun _ => 1⟩

/-- `Point.norm` (point.py lines 74-79) with the square root abstracted. -/
def Pt.norm (O : RO) (a : Pt) (len : ℚ) : Pt :=
  let l := O.sqrtF (a.x * a.x + a.y * a.y)
  if 0 < l then ⟨a.x / l * len, a.y / l * len⟩ else ⟨0, 0⟩

/-- The two halves constructed by `Polygon.cut` when the scan finds exactly
two crossings (polygon.py lines 470-483), together with the two
interpolated cut points and `edge1`.  `none` when `count ≠ 2`. -/
def cutPieces (p : Poly) (p1 p2 : Pt) : Option (Poly × Poly × Pt × Pt × ℕ) :=
  let s := cutScanAll p p1 p2
  if s.count = 2 then
    let point1 := p1.add ((p2.sub p1).smul s.rat1)
    let point2 := p1.add ((p2.sub p1).smul s.rat2)
    let half1 := point1 :: (pySlice p (s.edge1 + 1) (s.edge2 + 1) ++ [point2])
    let half2 := point2 :: (p.drop (s.edge2 + 1) ++ p.take (s.edge1 + 1) ++ [point1])
    some (half1, half2, point1, point2, s.edge1)
  else none

/-- `Polygon.cut` restricted to `gap = 0` (no peel step); used by `peel`
itself, mirroring that `peel` calls `cut(..., 0)`. -/
def cut0 (p : Poly) (p1 p2 : Pt) : List Poly :=
  match cutPieces p p1 p2 with
  | none => [p]
  | some (half1, half2, _, _, e1) =>
    let v := vectori p e1
    if cross (p2.x - p1.x) (p2.y - p1.y) v.x v.y > 0 then [half1, half2]
    else [half2, half1]

/-- `Polygon.peel` (polygon.py lines 304-318). -/
def peel (O : RO) (p : Poly) (v1 : Pt) (d : ℚ) : Poly :=
  match indexOfPt p v1 with
  | none => p
  | some i1 =>
    let i2 := (i1 + 1) % p.length
    let v2 := vAt p i2
    let n := Pt.norm O ((v2.sub v1).rot90) d
    (cut0 p (v1.add n) (v2.add n)).headD p

/-- `Polygon.cut` (polygon.py lines 437-497): scan for crossings; with
exactly two, build the two halves (peeled apart when `gap > 0`) and order
them by the cross-product sign; otherwise return `[self.copy()]`, a
single-element list whose element equals the receiver.  The receiver is
never mutated by the Python code, which is why the embedding is a pure
function of the vertex list. -/
def cut (O : RO) (p : Poly) (p1 p2 : Pt) (gap : ℚ) : List Poly :=
  match cutPieces p p1 p2 with
  | none => [p]
  | some (half1, half2, point1, point2, e1) =>
    let half1 := if gap > 0 then peel O half1 point2 (gap / 2) else half1
    let half2 := if gap > 0 then peel O half2 point1 (gap / 2) else half2
    let v := vectori p e1
    if cross (p2.x - p1.x) (p2.y - p1.y) v.x v.y > 0 then [half1, half2]
    else [half2, half1]

/-- Modelled from the spec: the number of edges of `p` whose closed segment
is crossed by the infinite line through `p1`, `p2` ("a cutting line ...
whose infinite line crosses the polygon boundary in exactly two edges").
An edge `v0 → v1` is crossed when the lines are not parallel and the exact
solution parameter `s` of the intersection along the edge satisfies
`0 ≤ s ≤ 1`. -/
def specCrossesEdge (p1 p2 v0 v1 : Pt) : Bool :=
  let d := p2.sub p1
  let e := v1.sub v0
  let den := cross d.x d.y e.x e.y
  if den = 0 then false
  else
    let s := cross d.x d.y (p1.x - v0.x) (p1.y - v0.y) / den
    decide (0 ≤ s ∧ s ≤ 1)

/-- Modelled from the spec: how many edges the infinite cutting line truly
crosses. -/
def specCrossingCount (p : Poly) (p1 p2 : Pt) : ℕ :=
  (List.range p.length).countP fun i => specCrossesEdge p1 p2 (vAt p i) (vAt p (i + 1))

/-- The unit square, used as concrete test input. -/
def sqPoly : Poly := [⟨0, 0⟩, ⟨1, 0⟩, ⟨1, 1⟩, ⟨0, 1⟩]

/-! ### CPython hashing model (for the Point identity-key claim)

`Point.__hash__` is `hash((self.x, self.y))`.  The model below follows the
CPython numeric-hash algorithm documented in the Python library reference
(`sys.hash_info.modulus = 2^61 - 1` on 64-bit builds) restricted to
nonnegative dyadic rationals, which is exactly the value set of the
nonnegative floats stored in a `Point`, and the CPython 3.8+ tuple hash
(the xxHash-based combiner from `Objects/tupleobject.c`).  The final
unsigned-to-signed conversion performed by CPython is a bijection on
64-bit words, so hash equality and inequality are unaffected by omitting
it. -/

/-- CPython's numeric hash modulus on 64-bit builds. -/
def pyHashP : ℕ := 2 ^ 61 - 1

/-- CPython hash of the nonnegative dyadic rational `n / 2^k`:
`n * inverse(2^k) mod (2^61 - 1)`, where the inverse of `2^k` is
`2^((61 - k % 61) % 61)` because `2^61 ≡ 1 (mod 2^61 - 1)`. -/
def pyHashDyadic (n k : ℕ) : ℕ := (n * 2 ^ ((61 - k % 61) % 61)) % pyHashP

/-- Base-2 logarithm by structural recursion on a fuel bound (so that it
evaluates by kernel reduction); `log2F fuel n` equals `Nat.log2 n` whenever
`n < 2 ^ fuel`. -/
def log2F : ℕ → ℕ → ℕ
  | 0, _ => 0
  | fuel + 1, n => if 2 ≤ n then log2F fuel (n / 2) + 1 else 0

/-- CPython hash of a nonnegative float given as an exact rational whose
denominator is a power of two (every nonnegative float is of this form;
4200 fuel covers the full double exponent range). -/
def pyHashFloatQ (q : ℚ) : ℕ := pyHashDyadic q.num.toNat (log2F 4200 q.den)

/-- xxHash prime 1 used by the CPython tuple hash. -/
def xxP1 : ℕ := 11400714785074694791

/-- xxHash prime 2 used by the CPython tuple hash. -/
def xxP2 : ℕ := 14029467366897019727

/-- xxHash prime 5 used by the CPython tuple hash. -/
def xxP5 : ℕ := 2870177450012600261

/-- Rotate a 64-bit word left by 31 bits. -/
def rotl31 (x : ℕ) : ℕ := (x % 2 ^ 33) * 2 ^ 31 + x / 2 ^ 33

/-- The CPython 3.8+ tuple hash over the item hashes (64-bit arithmetic). -/
def pyTupleHash (lanes : List ℕ) : ℕ :=
  let acc := lanes.foldl
    (fun acc lane => rotl31 ((acc + lane * xxP2) % 2 ^ 64) * xxP1 % 2 ^ 64) xxP5
  let acc := (acc + Nat.xor lanes.length (Nat.xor xxP5 3527539)) % 2 ^ 64
  if acc = 2 ^ 64 - 1 then 1546275796 else acc

/-- `Point.__hash__` (point.py lines 19-20): `hash((self.x, self.y))`. -/
def pointPyHash (p : Pt) : ℕ := pyTupleHash [pyHashFloatQ p.x, pyHashFloatQ p.y]

/-! ### Claim theorems: cut (C2, C7) and point hashing (C9) -/

/-- C2: the cut-success postcondition fails on the code.  For the unit
square and the vertical line through `(1/2, -1)` and `(1/2, 2)` — whose
infinite line crosses the polygon boundary in exactly two edges (bottom
and top) — `cut(p1, p2, gap=0)` does not return two polygons at all: its
crossing scan, built on `intersect_lines`, finds zero crossings (the `t2`
returned by `intersect_lines` is the negation of the true edge parameter),
so the cut falls back to a single-element copy of the receiver. -/
theorem cut_misses_true_crossings :
    specCrossingCount sqPoly ⟨1/2, -1⟩ ⟨1/2, 2⟩ = 2 ∧
    cut roId sqPoly ⟨1/2, -1⟩ ⟨1/2, 2⟩ 0 = [sqPoly] := by decide

/-- C7: when the crossing scan finds a count different from two, `cut`
returns the single-element list holding the original polygon (the Python
returns `[self.copy()]`, and `copy` produces an equal-valued polygon); the
receiver's vertex sequence is untouched, which the embedding reflects by
`cut` being a pure function of it. -/
theorem cut_fallback (O : RO) (p : Poly) (p1 p2 : Pt) (gap : ℚ)
    (h : (cutScanAll p p1 p2).count ≠ 2) : cut O p p1 p2 gap = [p] := by
  have hp : cutPieces p p1 p2 = none := by
    unfold cutPieces
    simp [h]
  unfold cut
  rw [hp]

/-- C7 witness: a triangle and a cutting line that misses it entirely
(scan count 0), with a positive gap. -/
theorem cut_fallback_witness :
    (cutScanAll [(⟨0, 0⟩ : Pt), ⟨4, 0⟩, ⟨0, 4⟩] ⟨10, 0⟩ ⟨10, 1⟩).count ≠ 2 ∧
    cut roId [(⟨0, 0⟩ : Pt), ⟨4, 0⟩, ⟨0, 4⟩] ⟨10, 0⟩ ⟨10, 1⟩ 5
      = [[⟨0, 0⟩, ⟨4, 0⟩, ⟨0, 4⟩]] :=
  ⟨by decide, cut_fallback roId [⟨0, 0⟩, ⟨4, 0⟩, ⟨0, 4⟩] ⟨10, 0⟩ ⟨10, 1⟩ 5 (by decide)⟩

/-- C9: the epsilon equality of `Point.__eq__` does not imply hash
equality.  `p = (0.0, 0.0)` and `q = (2^-35, 0.0)` (both exact doubles)
compare equal — their coordinates differ by about `2.9e-11 < 1e-10` — yet
`hash((x, y))` computed by CPython differs, so a dict keyed by `p` (such
as the topology's `pt2node`) does not find `q`. -/
theorem point_eq_hash_mismatch :
    ptEqB ⟨0, 0⟩ ⟨1 / 2 ^ 35, 0⟩ = true ∧
    pointPyHash ⟨0, 0⟩ ≠ pointPyHash ⟨1 / 2 ^ 35, 0⟩ := by decide

/-! ### Seeded RNG and the Model retry loop (C1)

`random.py` keeps one class-level LCG state.  `Random.reset(seed)` stores
the given integer when it differs from `-1` and otherwise reseeds from the
wall-clock time in milliseconds modulo the modulus (random.py lines
14-20).  `Model.__init__` (model.py lines 100-114) seeds from the user
seed when it is positive and then retries `_build` up to ten times,
calling the *argumentless* `Random.reset()` — the time-based branch —
after every failed attempt.  `_build` draws every random quantity through
the global `Random`, so it is abstracted below as an arbitrary
deterministic function of the RNG state at its entry, returning either a
result or a failure (the domain errors "Bad walled area shape!", "Bad
citadel shape!", "Unable to build a street!"). -/

/-- The LCG modulus `2147483647`. -/
def lcgM : ℤ := 2147483647

/-- `Random._next` (random.py lines 27-31); exact for every state whose
product with 48271 stays in the exact double range, which holds for all
states below 2^37. -/
def lcgNext (s : ℤ) : ℤ := s * 48271 % lcgM

/-- `Random.reset` (random.py lines 14-20): an explicit seed is stored
as-is, the default `-1` falls back to the current time in milliseconds
reduced modulo the modulus. -/
def randomReset (seed : ℤ) (timeMs : ℤ) : ℤ :=
  if seed ≠ -1 then seed else timeMs % lcgM

/-- The retry loop of `Model.__init__` (model.py lines 100-114): up to ten
attempts; a failed attempt is followed by `Random.reset()` with no seed,
i.e. a reseed from the wall-clock time stream `times` (indexed by attempt
number). -/
def modelAttempts {α : Type} (build : ℤ → Except Unit α) (times : ℕ → ℤ) :
    ℕ → ℕ → ℤ → Except String α
  | 0, _, _ => .error "Failed to build city"
  | fuel + 1, k, s =>
    match build s with
    | .ok out => .ok out
    | .error _ =>
      if fuel = 0 then .error "Failed to build city"
      else modelAttempts build times fuel (k + 1) (randomReset (-1) (times k))

/-- `Model.__init__` entry: seed the RNG from `seed` when `seed > 0`
(otherwise the ambient class-level state is kept), then run the bounded
retry loop. -/
def modelInit {α : Type} (build : ℤ → Except Unit α) (times : ℕ → ℤ)
    (ambient seed : ℤ) : Except String α :=
  modelAttempts build times 10 0 (if seed > 0 then randomReset seed 0 else ambient)

/-- A build stage that fails exactly on RNG state 5 and otherwise reports
the RNG state it was entered with. -/
def buildFailOn5 : ℤ → Except Unit ℤ :=
  fun s => if s = 5 then .error () else .ok s

/-- C1 counterexample: with the same `(n, seed)` — seed 5 > 0 — and a
build stage that fails on the first attempt, the final result depends on
the wall-clock time stream consulted by the retry reseed: a run at time
100 ms and a run at time 200 ms produce different outputs.  Repeated
generation with a fixed seed is therefore not bit-identical whenever an
attempt fails. -/
theorem modelInit_time_dependent :
    modelInit buildFailOn5 (fun _ => 100) 1 5 ≠ modelInit buildFailOn5 (fun _ => 200) 1 5 := by
  intro h
  have h1 : modelInit buildFailOn5 (fun _ => 100) 1 5 = .ok 100 := rfl
  have h2 : modelInit buildFailOn5 (fun _ => 200) 1 5 = .ok 200 := rfl
  rw [h1, h2] at h
  exact absurd (Except.ok.inj h) (by decide)

/-- C1 amended: when the first build attempt succeeds, the result is a
pure function of the seed — independent of the wall-clock streams and of
the ambient pre-seed RNG state — so two runs with the same `(n, seed)`
agree. -/
theorem modelInit_deterministic_on_first_success {α : Type}
    (build : ℤ → Except Unit α) (seed : ℤ) (out : α)
    (hs : 0 < seed) (hb : build seed = .ok out) :
    ∀ ambient ambient2 : ℤ, ∀ times times2 : ℕ → ℤ,
      modelInit build times ambient seed = modelInit build times2 ambient2 seed := by
  intro ambient ambient2 times times2
  have hseed : randomReset seed 0 = seed := by
    unfold randomReset
    rw [if_pos (by omega)]
  have key : ∀ (ts : ℕ → ℤ) (amb : ℤ), modelInit build ts amb seed = .ok out := by
    intro ts amb
    unfold modelInit
    rw [if_pos hs, hseed]
    unfold modelAttempts
    rw [hb]
  rw [key times ambient, key times2 ambient2]

/-- C1 amended witness: a build that succeeds immediately on seed 7 gives
the same output for two different time streams and ambient states. -/
theorem modelInit_deterministic_witness :
    (0 : ℤ) < 7 ∧
    modelInit (fun s => Except.ok s) (fun _ => 0) 1 7
      = modelInit (fun s => Except.ok s) (fun _ => 99) 2 7 :=
  ⟨by decide,
    modelInit_deterministic_on_first_success (fun s => Except.ok s) 7 7 (by decide) rfl 1 2
      (fun _ => 0) (fun _ => 99)⟩

/-! ### Curtain wall gates and towers (C4, C6)

`CurtainWall._build_gates` (curtain_wall.py lines 44-144) computes the
entrance-candidate list, raises `Bad walled area shape!` when it is empty,
uses the candidates directly when fewer than three remain, and otherwise
repeatedly picks one at random as a gate and removes its neighbours.
`Random.int(0, len(entrances))` is abstracted as a choice function
`pick`; the loop is driven by explicit fuel (the candidate count strictly
decreases by three per iteration, so `entrances.length` rounds of fuel are
more than enough, and the theorems below hold for every fuel outcome).
The patch-splitting side effect in the `real` branch writes only
`model.patches` — it feeds back only into later splitting, never into the
candidate list or the gates — and the final in-place gate smoothing
rewrites coordinates without changing the gate list, so both are omitted
from the embedding.  `build_towers` (lines 146-155) is embedded as the
filter it is; `self.real` is the constant `True` (line 15). -/

/-- `exOk`: whether an `Except` value is a success. -/
def exOk {ε α : Type} : Except ε α → Bool
  | .ok _ => true
  | .error _ => false

/-- The entrance-candidate list of `_build_gates` (curtain_wall.py lines
46-54): for a multi-parcel wall the non-reserved shape vertices contained
in more than one enclosed parcel, for a single-parcel wall all
non-reserved shape vertices. -/
def entrancesOf (shapeVerts reserved : List Pt) (patches : List Poly) : List Pt :=
  if 1 < patches.length then
    shapeVerts.filter fun v =>
      !(memPt v reserved) && decide (1 < patches.countP fun pat => memPt v pat)
  else shapeVerts.filter fun v => !(memPt v reserved)

/-- The neighbour-removal step after choosing gate `index` (curtain_wall.py
lines 112-129): Haxe-style splice at the first, last or an interior
position. -/
def gatesEntrancesStep (index : ℕ) (entrances : List Pt) : List Pt :=
  if index = 0 then
    let e := entrances.drop 2
    if 0 < e.length then e.dropLast else e
  else if index = entrances.length - 1 then
    let e := entrances.take (index - 1) ++ entrances.drop (index + 1)
    if 0 < e.length then e.drop 1 else e
  else entrances.take (index - 1) ++ entrances.drop (index + 2)

/-- The gate-selection loop (`while len(entrances) >= 3`, curtain_wall.py
lines 69-129), with the random index drawn through `pick`; returns the
gates chosen and the remaining candidates. -/
def buildGatesLoop (pick : List Pt → ℕ) : ℕ → List Pt → List Pt → List Pt × List Pt
  | 0, entrances, gates => (gates, entrances)
  | fuel + 1, entrances, gates =>
    if 3 ≤ entrances.length then
      let index := pick entrances
      let gate := entrances.getD index default
      buildGatesLoop pick fuel (gatesEntrancesStep index entrances) (gates ++ [gate])
    else (gates, entrances)

/-- `_build_gates` (curtain_wall.py lines 44-144): empty candidate set
raises; fewer than three candidates become the gates directly; otherwise
the selection loop runs, followed by the fallback that reuses a remaining
candidate (or raises) when no gate was chosen. -/
def buildGates (pick : List Pt → ℕ) (shapeVerts reserved : List Pt)
    (patches : List Poly) : Except String (List Pt) :=
  let entrances := entrancesOf shapeVerts reserved patches
  if entrances.length = 0 then .error "Bad walled area shape!"
  else if entrances.length < 3 then .ok entrances
  else
    let r := buildGatesLoop pick entrances.length entrances []
    if r.1.length = 0 then
      if 0 < r.2.length then .ok [r.2.headD default] else .error "Bad walled area shape!"
    else .ok r.1

/-- `build_towers` (curtain_wall.py lines 146-155): a tower at every shape
vertex that is not (epsilon-)equal to a gate and borders an active
segment. -/
def buildTowers (shapeVerts gates : List Pt) (segments : List Bool) : List Pt :=
  (List.range shapeVerts.length).filterMap fun i =>
    let t := shapeVerts.getD i default
    if !(memPt t gates) &&
        (segments.getD ((i + shapeVerts.length - 1) % shapeVerts.length) false
          || segments.getD i false)
    then some t else none

/-- Once entered with at least three candidates, the selection loop
appends at least one gate. -/
theorem buildGatesLoop_len (pick : List Pt → ℕ) :
    ∀ fuel entrances gates, (gates : List Pt).length ≤ ((buildGatesLoop pick fuel entrances gates).1).length := by
  intro fuel
  induction fuel with
  | zero => intro entrances gates; simp [buildGatesLoop]
  | succ n ih =>
    intro entrances gates
    unfold buildGatesLoop
    by_cases h : 3 ≤ entrances.length
    · rw [if_pos h]
      calc gates.length ≤ (gates ++ [entrances.getD (pick entrances) default]).length := by
            simp
        _ ≤ _ := ih _ _
    · rw [if_neg h]

/-- With fuel available and at least three candidates, the loop returns a
nonempty gate list. -/
theorem buildGatesLoop_pos (pick : List Pt → ℕ) (fuel : ℕ) (entrances gates : List Pt)
    (hf : 1 ≤ fuel) (he : 3 ≤ entrances.length) :
    1 ≤ ((buildGatesLoop pick fuel entrances gates).1).length := by
  obtain ⟨n, rfl⟩ : ∃ n, fuel = n + 1 := ⟨fuel - 1, by omega⟩
  unfold buildGatesLoop
  rw [if_pos he]
  calc 1 ≤ (gates ++ [entrances.getD (pick entrances) default]).length := by simp
    _ ≤ _ := buildGatesLoop_len pick n _ _

/-- C4: gate construction raises the bad-walled-area error exactly when
the entrance-candidate set is empty, and every normal completion selects
at least one gate. -/
theorem buildGates_error_iff (pick : List Pt → ℕ) (sv rs : List Pt) (ps : List Poly) :
    (exOk (buildGates pick sv rs ps) = false ↔ entrancesOf sv rs ps = []) ∧
    (∀ gs, buildGates pick sv rs ps = .ok gs → 1 ≤ gs.length) := by
  unfold buildGates
  by_cases h0 : (entrancesOf sv rs ps).length = 0
  · rw [if_pos h0]
    refine ⟨⟨fun _ => List.length_eq_zero.mp h0, fun _ => rfl⟩, fun gs hgs => by cases hgs⟩
  · rw [if_neg h0]
    by_cases h3 : (entrancesOf sv rs ps).length < 3
    · rw [if_pos h3]
      refine ⟨⟨(fun hc => by cases hc), (fun hnil => absurd (congrArg List.length hnil) (by simpa using h0))⟩,
        fun gs hgs => ?_⟩
      cases hgs
      omega
    · rw [if_neg h3]
      have hloopPos : 1 ≤ ((buildGatesLoop pick (entrancesOf sv rs ps).length (entrancesOf sv rs ps) []).1).length :=
        buildGatesLoop_pos pick _ _ [] (by omega) (by omega)
      rw [if_neg (by omega)]
      refine ⟨⟨(fun hc => by cases hc), (fun hnil => absurd (congrArg List.length hnil) (by simpa using h0))⟩,
        fun gs hgs => ?_⟩
      cases hgs
      omega

/-- C4 witness: an empty vertex list yields the error, and a single
non-reserved vertex yields a normal completion with one gate. -/
theorem buildGates_error_iff_witness :
    exOk (buildGates (fun _ => 0) [] [] []) = false ∧
    (1 : ℕ) ≤ [(⟨0, 0⟩ : Pt)].length :=
  ⟨(buildGates_error_iff (fun _ => 0) [] [] []).1.mpr rfl,
    (buildGates_error_iff (fun _ => 0) [⟨0, 0⟩] [] [[⟨0, 0⟩]]).2 [⟨0, 0⟩] rfl⟩

/-- C6: every successful gate construction produces at least one gate, and
no tower produced by `build_towers` is (epsilon-)equal to any gate. -/
theorem wall_gates_nonempty_towers_disjoint (pick : List Pt → ℕ) (sv rs : List Pt)
    (ps : List Poly) (verts gates : List Pt) (segs : List Bool) :
    (∀ gs, buildGates pick sv rs ps = .ok gs → 1 ≤ gs.length) ∧
    (∀ t ∈ buildTowers verts gates segs, memPt t gates = false) := by
  refine ⟨(buildGates_error_iff pick sv rs ps).2, fun t ht => ?_⟩
  simp only [buildTowers, List.mem_filterMap, List.mem_range] at ht
  obtain ⟨i, _, hcond⟩ := ht
  split at hcond
  · next hb =>
    cases hcond
    simp only [Bool.and_eq_true] at hb
    simpa using hb.1
  · cases hcond

/-- C6 witness: a two-vertex wall with one gate has the other vertex as
its only tower, and a one-candidate wall completes with one gate. -/
theorem wall_gates_nonempty_towers_disjoint_witness :
    (1 : ℕ) ≤ [(⟨0, 0⟩ : Pt)].length ∧
    memPt ⟨100, 0⟩ [(⟨0, 0⟩ : Pt)] = false :=
  ⟨(wall_gates_nonempty_towers_disjoint (fun _ => 0) [⟨0, 0⟩] [] [[⟨0, 0⟩]]
      [⟨0, 0⟩, ⟨100, 0⟩] [⟨0, 0⟩] [true, true]).1 [⟨0, 0⟩] rfl,
    (wall_gates_nonempty_towers_disjoint (fun _ => 0) [⟨0, 0⟩] [] [[⟨0, 0⟩]]
      [⟨0, 0⟩, ⟨100, 0⟩] [⟨0, 0⟩] [true, true]).2 ⟨100, 0⟩ (by decide)⟩

/-! ### Graph and path search (C5, C10)

`Graph.a_star` (graph.py lines 50-97) is a BFS-like uniform-cost search:
the open list is popped from the front, the closed set starts as a copy of
the `exclude` list, predecessors are kept in `came_from`, and the final
path is rebuilt backwards from the goal and reversed.  Nodes are natural
numbers; a node's adjacency (`Node.links`) is a list of
`(neighbour, weight)` pairs.  The mutable Python objects are carried in an
explicit state record; the caller's `exclude` list is one of its fields so
that the frame property "the search does not mutate `exclude`" is a
statement about the embedded state rather than an artifact of purity.  The
loop body is factored into `aStarStep`; the loop itself runs on fuel, and
the soundness theorem quantifies over the fuel, covering every run that
returns a path. -/

/-- Adjacency of the graph: `Node.links` per node id. -/
abbrev Links := ℕ → List (ℕ × ℚ)

/-- The mutable state of `Graph.a_star`: the caller's `exclude` list, the
open list, the closed list (initialised to a copy of `exclude`), the
`came_from` map and the `g_score` map. -/
structure AState where
  excl : List ℕ
  openL : List ℕ
  closedL : List ℕ
  cameFrom : ℕ → Option ℕ
  gScore : ℕ → Option ℚ

/-- The `came_from`/`g_score` update of the neighbour loop:
`came_from[neighbour] = current; g_score[neighbour] = score`. -/
def cfUpdate (st : AState) (nb current : ℕ) (score : ℚ) : AState :=
  { st with
    cameFrom := fun m => if m = nb then some current else st.cameFrom m
    gScore := fun m => if m = nb then some score else st.gScore m }

/-- `open_set.append(neighbour)`. -/
def openAppend (st : AState) (nb : ℕ) : AState :=
  { st with openL := st.openL ++ [nb] }

/-- The neighbour loop of `a_star` (graph.py lines 75-86): skip closed
neighbours; append unseen neighbours to the open list and record their
predecessor and score; for neighbours already open, keep the recorded
score unless the new one is better. -/
def processNeighbours (current : ℕ) (curScore : ℚ) :
    List (ℕ × ℚ) → AState → AState
  | [], st => st
  | (nb, w) :: rest, st =>
    if nb ∈ st.closedL then processNeighbours current curScore rest st
    else
      let score := curScore + w
      if nb ∈ st.openL then
        match st.gScore nb with
        | some g =>
          if g ≤ score then processNeighbours current curScore rest st
          else processNeighbours current curScore rest (cfUpdate st nb current score)
        | none => processNeighbours current curScore rest (cfUpdate st nb current score)
      else
        processNeighbours current curScore rest (cfUpdate (openAppend st nb) nb current score)

/-- `Graph._build_path` before the final `reverse` (graph.py lines 90-97),
with explicit fuel; the search invariant bounds the predecessor chain by
the closed-list length, so the fuel passed by `aStarStep` never runs out. -/
def buildPathRev (cf : ℕ → Option ℕ) : ℕ → ℕ → List ℕ
  | 0, cur => [cur]
  | fuel + 1, cur =>
    match cf cur with
    | none => [cur]
    | some c => cur :: buildPathRev cf fuel c

/-- One iteration of the `a_star` main loop (graph.py lines 63-88): pop
the front of the open list; if it is the goal, rebuild and return the
path; otherwise close it and process its neighbours.  `Sum.inl` is a
return, `Sum.inr` the state for the next iteration. -/
def aStarStep (links : Links) (goal : ℕ) (st : AState) :
    (Option (List ℕ) × AState) ⊕ AState :=
  match st.openL with
  | [] => .inl (none, st)
  | current :: rest =>
    let st1 : AState := { st with openL := rest }
    if current = goal then
      .inl (some ((buildPathRev st1.cameFrom (st1.closedL.length + 1) current).reverse), st1)
    else
      let st2 : AState := { st1 with closedL := st1.closedL ++ [current] }
      .inr (processNeighbours current ((st2.gScore current).getD 0) (links current) st2)

/-- The `a_star` main loop on fuel. -/
def aStarLoop (links : Links) (goal : ℕ) : ℕ → AState → Option (List ℕ) × AState
  | 0, st => (none, st)
  | fuel + 1, st =>
    match aStarStep links goal st with
    | .inl r => r
    | .inr st2 => aStarLoop links goal fuel st2

/-- The initial state of `a_star` (graph.py lines 57-61): the closed set
is a copy of `exclude`, the open set holds `start`, `g_score = {start: 0}`. -/
def aStarInit (start : ℕ) (exclude : List ℕ) : AState :=
  { excl := exclude
    openL := [start]
    closedL := exclude
    cameFrom := fun _ => none
    gScore := fun n => if n = start then some 0 else none }

/-- `Graph.a_star`, returning the optional path and the final state. -/
def aStar (links : Links) (start goal : ℕ) (exclude : List ℕ) (fuel : ℕ) :
    Option (List ℕ) × AState :=
  aStarLoop links goal fuel (aStarInit start exclude)

/-- The nodes popped from the open list so far: the closed list beyond its
initial `exclude` prefix. -/
def popped (st : AState) : List ℕ := st.closedL.drop st.excl.length

/-- The neighbour loop touches neither the `exclude` field nor the closed
list. -/
theorem processNeighbours_excl_closed (current : ℕ) (curScore : ℚ) :
    ∀ (l : List (ℕ × ℚ)) (st : AState),
      (processNeighbours current curScore l st).excl = st.excl ∧
      (processNeighbours current curScore l st).closedL = st.closedL := by
  intro l
  induction l with
  | nil => intro st; exact ⟨rfl, rfl⟩
  | cons hd rest ih =>
    intro st
    obtain ⟨nb, w⟩ := hd
    unfold processNeighbours
    by_cases hc : nb ∈ st.closedL
    · rw [if_pos hc]; exact ih st
    · rw [if_neg hc]
      by_cases ho : nb ∈ st.openL
      · rw [if_pos ho]
        cases hgs : st.gScore nb with
        | some g =>
          dsimp only
          by_cases hg : g ≤ curScore + w
          · rw [if_pos hg]; exact ih st
          · rw [if_neg hg]; exact ih _
        | none => exact ih _
      · rw [if_neg ho]
        exact ih _

/-- Case inversion for a returning step. -/
theorem aStarStep_inl_inv {links : Links} {goal : ℕ} {st : AState}
    {res : Option (List ℕ) × AState}
    (h : aStarStep links goal st = .inl res) :
    (st.openL = [] ∧ res = (none, st)) ∨
    (∃ rest, st.openL = goal :: rest ∧
      res = (some ((buildPathRev st.cameFrom (st.closedL.length + 1) goal).reverse),
        { st with openL := rest })) := by
  unfold aStarStep at h
  rcases hop : st.openL with _ | ⟨current, rest⟩
  · rw [hop] at h
    dsimp only at h
    exact .inl ⟨rfl, by injection h with h; exact h.symm⟩
  · rw [hop] at h
    dsimp only at h
    by_cases hg : current = goal
    · rw [if_pos hg] at h
      subst hg
      refine .inr ⟨rest, rfl, ?_⟩
      injection h with h
      exact h.symm
    · rw [if_neg hg] at h
      cases h

/-- Case inversion for a continuing step. -/
theorem aStarStep_inr_inv {links : Links} {goal : ℕ} {st st2 : AState}
    (h : aStarStep links goal st = .inr st2) :
    ∃ current rest, st.openL = current :: rest ∧ current ≠ goal ∧
      st2 = processNeighbours current ((st.gScore current).getD 0) (links current)
        { st with openL := rest, closedL := st.closedL ++ [current] } := by
  unfold aStarStep at h
  rcases hop : st.openL with _ | ⟨current, rest⟩
  · rw [hop] at h; dsimp only at h; cases h
  · rw [hop] at h
    dsimp only at h
    by_cases hg : current = goal
    · rw [if_pos hg] at h; cases h
    · rw [if_neg hg] at h
      injection h with h
      exact ⟨current, rest, rfl, hg, h.symm⟩

/-- Frame over a continuing step: `excl` is untouched and the closed list
only grows by the popped node. -/
theorem aStarStep_inr_frame {links : Links} {goal : ℕ} {st st2 : AState}
    (h : aStarStep links goal st = .inr st2) :
    st2.excl = st.excl ∧ ∃ c, st2.closedL = st.closedL ++ [c] := by
  obtain ⟨current, rest, hop, hg, hdef⟩ := aStarStep_inr_inv h
  subst hdef
  refine ⟨(processNeighbours_excl_closed _ _ _ _).1, current, ?_⟩
  exact (processNeighbours_excl_closed _ _ _ _).2

/-- The loop leaves `excl` unchanged and preserves the `exclude` prefix of
the closed list. -/
theorem aStarLoop_frame (links : Links) (goal : ℕ) :
    ∀ (fuel : ℕ) (st : AState),
      (aStarLoop links goal fuel st).2.excl = st.excl ∧
      (st.closedL.take st.excl.length = st.excl →
        (aStarLoop links goal fuel st).2.closedL.take st.excl.length = st.excl) := by
  intro fuel
  induction fuel with
  | zero => intro st; exact ⟨rfl, fun h => h⟩
  | succ n ih =>
    intro st
    have hunfold : aStarLoop links goal (n + 1) st =
        match aStarStep links goal st with
        | .inl r => r
        | .inr st2 => aStarLoop links goal n st2 := rfl
    rcases hstep : aStarStep links goal st with r | st2
    · rw [hunfold, hstep]
      rcases aStarStep_inl_inv hstep with ⟨_, rfl⟩ | ⟨rest, hop, rfl⟩
      · exact ⟨rfl, fun h => h⟩
      · exact ⟨rfl, fun h => h⟩
    · rw [hunfold, hstep]
      obtain ⟨hexcl, c, hclosed⟩ := aStarStep_inr_frame hstep
      refine ⟨by rw [(ih st2).1, hexcl], fun hpre => ?_⟩
      have hlen : st.excl.length ≤ st.closedL.length := by
        have := congrArg List.length hpre
        simp only [List.length_take] at this
        omega
      have hpre2 : st2.closedL.take st2.excl.length = st2.excl := by
        rw [hexcl, hclosed, List.take_append_of_le_length hlen, hpre]
      have h2 := (ih st2).2 hpre2
      rw [hexcl] at h2
      exact h2

/-- C10: `a_star` does not mutate the caller's exclusion list: the
`exclude` field of the final state equals the list passed in, while the
closed set the search extends merely starts from a copy of it (`exclude`
stays its prefix). -/
theorem aStar_exclude_unchanged (links : Links) (start goal : ℕ) (exclude : List ℕ)
    (fuel : ℕ) :
    (aStar links start goal exclude fuel).2.excl = exclude ∧
    (aStar links start goal exclude fuel).2.closedL.take exclude.length = exclude := by
  have h := aStarLoop_frame links goal fuel (aStarInit start exclude)
  exact ⟨h.1, h.2 (by simp [aStarInit])⟩

/-- Linkedness in the embedded graph: `b` (with some weight) appears in
`a`'s adjacency list. -/
def linkedTo (links : Links) (a b : ℕ) : Prop := ∃ w, (b, w) ∈ links a

/-- The search invariant of `a_star`, holding from the moment the start
node has been popped and closed: the closed list still begins with the
`exclude` copy; `start` is closed and has no predecessor; the open list
has no duplicates and is disjoint from the closed list; a popped node is
never an excluded node (except possibly `start` itself); `came_from`
always points to an already-popped, linked predecessor; predecessor links
strictly decrease the pop rank (so predecessor chains are acyclic); and
every open or popped node other than `start` has a predecessor. -/
structure AInv (links : Links) (start : ℕ) (st : AState) : Prop where
  htake : st.closedL.take st.excl.length = st.excl
  hstart_closed : start ∈ st.closedL
  hstart_cf : st.cameFrom start = none
  hopen_nodup : st.openL.Nodup
  hopen_closed : ∀ x ∈ st.openL, x ∉ st.closedL
  hpop_excl : ∀ x ∈ popped st, x ∈ st.excl → x = start
  hpop_nodup : (popped st).Nodup
  hcf_closed : ∀ n c, st.cameFrom n = some c → c ∈ popped st ∧ linkedTo links c n
  hcf_rank : ∀ n c, st.cameFrom n = some c → n ∈ popped st →
    List.indexOf c (popped st) < List.indexOf n (popped st)
  hcf_tot_pop : ∀ n ∈ popped st, n ≠ start → st.cameFrom n ≠ none
  hcf_tot_open : ∀ n ∈ st.openL, n ≠ start → st.cameFrom n ≠ none

/-- The closed list splits into the exclude copy and the popped suffix. -/
theorem AInv.closed_split {links : Links} {start : ℕ} {st : AState}
    (inv : AInv links start st) : st.closedL = st.excl ++ popped st := by
  conv_lhs => rw [← List.take_append_drop st.excl.length st.closedL]
  rw [inv.htake]
  rfl

/-- Excluded nodes are closed. -/
theorem AInv.excl_closed {links : Links} {start : ℕ} {st : AState}
    (inv : AInv links start st) : ∀ x ∈ st.excl, x ∈ st.closedL := by
  intro x hx
  rw [inv.closed_split]
  exact List.mem_append_left _ hx

/-- Popped nodes are closed. -/
theorem AInv.pop_closed {links : Links} {start : ℕ} {st : AState}
    (inv : AInv links start st) : ∀ x ∈ popped st, x ∈ st.closedL := by
  intro x hx
  rw [inv.closed_split]
  exact List.mem_append_right _ hx

/-- Setting `came_from[nb] = current` (with its score) keeps the invariant
when `nb` is not closed and `current` is a popped node linked to `nb`. -/
theorem cfUpdate_inv {links : Links} {start : ℕ} {st : AState}
    (inv : AInv links start st) {nb current : ℕ} {score : ℚ}
    (hnc : nb ∉ st.closedL) (hcur : current ∈ popped st)
    (hlink : linkedTo links current nb) :
    AInv links start (cfUpdate st nb current score) := by
  have hnbs : nb ≠ start := fun h => hnc (h ▸ inv.hstart_closed)
  have hnbp : nb ∉ popped st := fun h => hnc (inv.pop_closed nb h)
  refine ⟨inv.htake, inv.hstart_closed, ?_, inv.hopen_nodup, inv.hopen_closed,
    inv.hpop_excl, inv.hpop_nodup, ?_, ?_, ?_, ?_⟩
  · show (if start = nb then some current else st.cameFrom start) = none
    rw [if_neg (fun h => hnbs h.symm)]
    exact inv.hstart_cf
  · intro n c hcf
    by_cases hn : n = nb
    · subst hn
      simp only [cfUpdate, if_pos rfl] at hcf
      cases hcf
      exact ⟨hcur, hlink⟩
    · simp only [cfUpdate, if_neg hn] at hcf
      exact inv.hcf_closed n c hcf
  · intro n c hcf hnp
    by_cases hn : n = nb
    · exact absurd (hn ▸ hnp) hnbp
    · simp only [cfUpdate, if_neg hn] at hcf
      exact inv.hcf_rank n c hcf hnp
  · intro n hnp hns
    have hn : n ≠ nb := fun h => hnbp (h ▸ hnp)
    simp only [cfUpdate, if_neg hn]
    exact inv.hcf_tot_pop n hnp hns
  · intro n hno hns
    by_cases hn : n = nb
    · subst hn
      simp only [cfUpdate, if_pos rfl]
      exact Option.some_ne_none _
    · simp only [cfUpdate, if_neg hn]
      exact inv.hcf_tot_open n hno hns

/-- Appending a fresh, unclosed node that has a predecessor (or is
`start`) to the open list keeps the invariant. -/
theorem openAppend_inv {links : Links} {start : ℕ} {st : AState}
    (inv : AInv links start st) {nb : ℕ}
    (hnc : nb ∉ st.closedL) (hno : nb ∉ st.openL)
    (hcf : st.cameFrom nb ≠ none ∨ nb = start) :
    AInv links start (openAppend st nb) := by
  refine ⟨inv.htake, inv.hstart_closed, inv.hstart_cf, ?_, ?_, inv.hpop_excl,
    inv.hpop_nodup, inv.hcf_closed, inv.hcf_rank, inv.hcf_tot_pop, ?_⟩
  · simpa [openAppend, List.nodup_append] using ⟨inv.hopen_nodup, hno⟩
  · intro x hx
    rcases List.mem_append.mp hx with hx | hx
    · exact inv.hopen_closed x hx
    · rw [List.mem_singleton.mp hx]
      exact hnc
  · intro n hno2 hns
    rcases List.mem_append.mp hno2 with hn | hn
    · exact inv.hcf_tot_open n hn hns
    · rcases hcf with hcf | hcf
      · rw [List.mem_singleton.mp hn]
        exact hcf
      · exact (hns ((List.mem_singleton.mp hn).trans hcf)).elim

/-- The neighbour loop preserves the invariant when `current` is popped
and the remaining neighbour list comes from `current`'s adjacency. -/
theorem processNeighbours_inv {links : Links} {start current : ℕ} :
    ∀ (l : List (ℕ × ℚ)) (st : AState) (curScore : ℚ),
      AInv links start st → current ∈ popped st →
      (∀ e ∈ l, e ∈ links current) →
      AInv links start (processNeighbours current curScore l st) := by
  intro l
  induction l with
  | nil => intro st curScore inv _ _; exact inv
  | cons hd rest ih =>
    intro st curScore inv hcur hsub
    obtain ⟨nb, w⟩ := hd
    have hsubr : ∀ e ∈ rest, e ∈ links current := fun e he => hsub e (List.mem_cons_of_mem _ he)
    have hlink : linkedTo links current nb := ⟨w, hsub (nb, w) (List.mem_cons_self _ _)⟩
    unfold processNeighbours
    by_cases hc : nb ∈ st.closedL
    · rw [if_pos hc]
      exact ih st curScore inv hcur hsubr
    · rw [if_neg hc]
      by_cases ho : nb ∈ st.openL
      · rw [if_pos ho]
        cases hgs : st.gScore nb with
        | some g =>
          dsimp only
          by_cases hg : g ≤ curScore + w
          · rw [if_pos hg]
            exact ih st curScore inv hcur hsubr
          · rw [if_neg hg]
            exact ih _ curScore (cfUpdate_inv inv hc hcur hlink) hcur hsubr
        | none =>
          exact ih _ curScore (cfUpdate_inv inv hc hcur hlink) hcur hsubr
      · rw [if_neg ho]
        have hcomm : cfUpdate (openAppend st nb) nb current (curScore + w)
            = openAppend (cfUpdate st nb current (curScore + w)) nb := rfl
        rw [hcomm]
        refine ih _ curScore
          (openAppend_inv (cfUpdate_inv inv hc hcur hlink) hc ho ?_) hcur hsubr
        left
        show (if nb = nb then some current else st.cameFrom nb) ≠ none
        rw [if_pos rfl]
        exact Option.some_ne_none _

/-- Closing the popped node preserves the invariant, and the node becomes
the last popped one. -/
theorem close_inv {links : Links} {start : ℕ} {st : AState}
    (inv : AInv links start st) {current : ℕ} {rest : List ℕ}
    (hop : st.openL = current :: rest) :
    AInv links start { st with openL := rest, closedL := st.closedL ++ [current] } ∧
    current ∈ popped { st with openL := rest, closedL := st.closedL ++ [current] } := by
  have hcur_open : current ∈ st.openL := by rw [hop]; exact List.mem_cons_self _ _
  have hcc : current ∉ st.closedL := inv.hopen_closed current hcur_open
  have hcs : current ≠ start := fun h => hcc (h ▸ inv.hstart_closed)
  have hlen : st.excl.length ≤ st.closedL.length := by
    have h1 := congrArg List.length inv.htake
    simp only [List.length_take] at h1
    omega
  have hcp : current ∉ popped st := fun h => hcc (inv.pop_closed current h)
  have hnodup_cons : (current :: rest).Nodup := hop ▸ inv.hopen_nodup
  have hpop2 : popped { st with openL := rest, closedL := st.closedL ++ [current] }
      = popped st ++ [current] := by
    show (st.closedL ++ [current]).drop st.excl.length
      = st.closedL.drop st.excl.length ++ [current]
    rw [List.drop_append_of_le_length hlen]
  have hcf_cur : ∃ c, st.cameFrom current = some c := by
    have hne := inv.hcf_tot_open current hcur_open hcs
    cases hcf : st.cameFrom current with
    | none => exact absurd hcf hne
    | some c => exact ⟨c, rfl⟩
  constructor
  · refine ⟨?_, List.mem_append_left _ inv.hstart_closed, inv.hstart_cf, ?_, ?_, ?_, ?_,
      ?_, ?_, ?_, ?_⟩
    · show (st.closedL ++ [current]).take st.excl.length = st.excl
      rw [List.take_append_of_le_length hlen]
      exact inv.htake
    · exact (List.nodup_cons.mp hnodup_cons).2
    · intro x hx
      have hxo : x ∈ st.openL := by rw [hop]; exact List.mem_cons_of_mem _ hx
      intro hmem
      rcases List.mem_append.mp hmem with hmem | hmem
      · exact inv.hopen_closed x hxo hmem
      · exact (List.nodup_cons.mp hnodup_cons).1 (List.mem_singleton.mp hmem ▸ hx)
    · rw [hpop2]
      intro x hx hxe
      rcases List.mem_append.mp hx with hx | hx
      · exact inv.hpop_excl x hx hxe
      · rw [List.mem_singleton.mp hx] at hxe ⊢
        exact absurd (inv.excl_closed current hxe) hcc
    · rw [hpop2]
      simp only [List.nodup_append, List.nodup_singleton, true_and]
      refine ⟨inv.hpop_nodup, ?_⟩
      intro a ha hb
      rw [List.mem_singleton.mp hb] at ha
      exact hcp ha
    · intro n c hcf
      obtain ⟨hcpop, hlink⟩ := inv.hcf_closed n c hcf
      rw [hpop2]
      exact ⟨List.mem_append_left _ hcpop, hlink⟩
    · intro n c hcf hnp
      rw [hpop2] at hnp ⊢
      have hcpop : c ∈ popped st := (inv.hcf_closed n c hcf).1
      rw [List.indexOf_append_of_mem hcpop]
      rcases List.mem_append.mp hnp with hnp | hnp
      · rw [List.indexOf_append_of_mem hnp]
        exact inv.hcf_rank n c hcf hnp
      · rw [List.mem_singleton.mp hnp, List.indexOf_append_of_not_mem hcp,
          List.indexOf_cons_self]
        have := List.indexOf_lt_length.mpr hcpop
        omega
    · intro n hnp hns
      rw [hpop2] at hnp
      rcases List.mem_append.mp hnp with hnp | hnp
      · exact inv.hcf_tot_pop n hnp hns
      · rw [List.mem_singleton.mp hnp]
        obtain ⟨c, hc⟩ := hcf_cur
        rw [hc]
        exact Option.some_ne_none _
    · intro n hno hns
      have hn2 : n ∈ st.openL := by rw [hop]; exact List.mem_cons_of_mem _ hno
      exact inv.hcf_tot_open n hn2 hns
  · rw [hpop2]
    exact List.mem_append_right _ (List.mem_singleton_self _)

/-- A continuing search step preserves the invariant and the `excl`
field. -/
theorem aStarStep_inr_pres {links : Links} {goal start : ℕ} {st st2 : AState}
    (inv : AInv links start st) (h : aStarStep links goal st = .inr st2) :
    AInv links start st2 ∧ st2.excl = st.excl := by
  obtain ⟨current, rest, hop, _, rfl⟩ := aStarStep_inr_inv h
  have hc := close_inv inv hop
  exact ⟨processNeighbours_inv _ _ _ hc.1 hc.2 (fun e he => he),
    (processNeighbours_excl_closed _ _ _ _).1⟩

/-- Properties of the (pre-reverse) predecessor walk under the invariant:
it starts at the walked-from node, ends at `start`, follows `came_from`
links, and stays inside the popped set. -/
theorem buildPathRev_props {links : Links} {start : ℕ} {st : AState}
    (inv : AInv links start st) :
    ∀ (fuel : ℕ) (cur : ℕ),
      (cur = start ∨ ∃ c, st.cameFrom cur = some c ∧ c ∈ popped st ∧
        List.indexOf c (popped st) < fuel) →
      (buildPathRev st.cameFrom fuel cur).head? = some cur ∧
      (buildPathRev st.cameFrom fuel cur).getLast? = some start ∧
      List.Chain' (fun a b => st.cameFrom a = some b) (buildPathRev st.cameFrom fuel cur) ∧
      ∀ x ∈ buildPathRev st.cameFrom fuel cur, x = cur ∨ x ∈ popped st := by
  intro fuel
  induction fuel with
  | zero =>
    intro cur hcur
    rcases hcur with rfl | ⟨c, _, _, hlt⟩
    · exact ⟨rfl, rfl, List.chain'_singleton _, fun x hx => .inl (List.mem_singleton.mp hx)⟩
    · exact absurd hlt (Nat.not_lt_zero _)
  | succ n ih =>
    intro cur hcur
    by_cases hcs : cur = start
    · subst hcs
      have hred : buildPathRev st.cameFrom (n + 1) cur = [cur] := by
        conv_lhs => unfold buildPathRev
        rw [inv.hstart_cf]
      rw [hred]
      exact ⟨rfl, rfl, List.chain'_singleton _, fun x hx => .inl (List.mem_singleton.mp hx)⟩
    · rcases hcur with rfl | ⟨c, hcfc, hcp, hlt⟩
      · exact absurd rfl hcs
      · have hred : buildPathRev st.cameFrom (n + 1) cur
            = cur :: buildPathRev st.cameFrom n c := by
          conv_lhs => unfold buildPathRev
          rw [hcfc]
        have harg : c = start ∨ ∃ c2, st.cameFrom c = some c2 ∧ c2 ∈ popped st ∧
            List.indexOf c2 (popped st) < n := by
          by_cases hcsc : c = start
          · exact .inl hcsc
          · have hne := inv.hcf_tot_pop c hcp hcsc
            cases hcf2 : st.cameFrom c with
            | none => exact absurd hcf2 hne
            | some c2 =>
              have hrank := inv.hcf_rank c c2 hcf2 hcp
              exact .inr ⟨c2, rfl, (inv.hcf_closed c c2 hcf2).1, by omega⟩
        obtain ⟨ih1, ih2, ih3, ih4⟩ := ih c harg
        cases hL : buildPathRev st.cameFrom n c with
        | nil => rw [hL] at ih1; exact Option.noConfusion ih1
        | cons b L2 =>
          rw [hL] at ih1 ih2 ih3 ih4
          have hbc : b = c := by simpa using ih1
          subst hbc
          rw [hred, hL]
          refine ⟨rfl, ?_, ?_, ?_⟩
          · rw [List.getLast?_cons_cons]
            exact ih2
          · refine List.chain'_cons'.mpr ⟨fun y hy => ?_, ih3⟩
            have hyb : y = b := by
              rw [Option.mem_def] at hy
              exact (Option.some.inj hy).symm
            rw [hyb]
            exact hcfc
          · intro x hx
            rcases List.mem_cons.mp hx with rfl | hx
            · exact .inl rfl
            · rcases ih4 x hx with rfl | hxp
              · exact .inr hcp
              · exact .inr hxp

/-- Soundness of the search loop from any invariant state. -/
theorem aStarLoop_sound (links : Links) (start goal : ℕ) :
    ∀ (fuel : ℕ) (st : AState), AInv links start st →
      ∀ path, (aStarLoop links goal fuel st).1 = some path →
        path.head? = some start ∧ path.getLast? = some goal ∧
        List.Chain' (fun a b => ∃ w, (b, w) ∈ links a) path ∧
        (∀ x ∈ path, x ∈ st.excl → x = start) := by
  intro fuel
  induction fuel with
  | zero => intro st _ path h; exact Option.noConfusion h
  | succ n ih =>
    intro st inv path h
    have hunfold : aStarLoop links goal (n + 1) st =
        match aStarStep links goal st with
        | .inl r => r
        | .inr st2 => aStarLoop links goal n st2 := rfl
    rcases hstep : aStarStep links goal st with r | st2
    · rw [hunfold, hstep] at h
      rcases aStarStep_inl_inv hstep with ⟨hop, rfl⟩ | ⟨rest, hop, rfl⟩
      · exact Option.noConfusion h
      · dsimp only at h
        have hpath : (buildPathRev st.cameFrom (st.closedL.length + 1) goal).reverse = path :=
          Option.some.inj h
        have hgoal_open : goal ∈ st.openL := by rw [hop]; exact List.mem_cons_self _ _
        have hpoplen : (popped st).length ≤ st.closedL.length := by
          show (st.closedL.drop st.excl.length).length ≤ st.closedL.length
          rw [List.length_drop]
          omega
        have harg : goal = start ∨ ∃ c, st.cameFrom goal = some c ∧ c ∈ popped st ∧
            List.indexOf c (popped st) < st.closedL.length + 1 := by
          by_cases hgs : goal = start
          · exact .inl hgs
          · have hne := inv.hcf_tot_open goal hgoal_open hgs
            cases hcf : st.cameFrom goal with
            | none => exact absurd hcf hne
            | some c =>
              have hcp := (inv.hcf_closed goal c hcf).1
              have hlt := List.indexOf_lt_length.mpr hcp
              exact .inr ⟨c, rfl, hcp, by omega⟩
        obtain ⟨w1, w2, w3, w4⟩ := buildPathRev_props inv (st.closedL.length + 1) goal harg
        subst hpath
        refine ⟨?_, ?_, ?_, ?_⟩
        · rw [List.head?_reverse]
          exact w2
        · rw [List.getLast?_reverse]
          exact w1
        · rw [List.chain'_reverse]
          exact w3.imp fun a b hab => (inv.hcf_closed a b hab).2
        · intro x hx hxe
          rcases w4 x (List.mem_reverse.mp hx) with rfl | hxp
          · exact absurd (inv.excl_closed x hxe) (inv.hopen_closed x hgoal_open)
          · exact inv.hpop_excl x hxp hxe
    · rw [hunfold, hstep] at h
      obtain ⟨inv2, hexcl⟩ := aStarStep_inr_pres inv hstep
      obtain ⟨w1, w2, w3, w4⟩ := ih st2 inv2 path h
      exact ⟨w1, w2, w3, fun x hx hxe => w4 x hx (hexcl ▸ hxe)⟩

/-- `buildPathRev` collapses immediately on a node with no predecessor. -/
theorem buildPathRev_none {cf : ℕ → Option ℕ} {cur : ℕ} (h : cf cur = none) :
    ∀ n, buildPathRev cf (n + 1) cur = [cur] := by
  intro n
  unfold buildPathRev
  rw [h]

/-- The search state after the first iteration has popped and closed the
start node (before its neighbours are processed): open list empty, closed
list the exclude copy plus `start`. -/
def aStarBase (start : ℕ) (exclude : List ℕ) : AState :=
  { excl := exclude
    openL := []
    closedL := exclude ++ [start]
    cameFrom := fun _ => none
    gScore := fun n => if n = start then some 0 else none }

/-- C5: path-search soundness.  Whenever `a_star` returns a path, its
first element is `start`, its last element is `goal`, every pair of
consecutive nodes is joined by an existing graph link, and no node of the
exclusion list other than possibly `start` itself occurs in it (the
excluded nodes enter the closed set before the search begins). -/
theorem aStar_sound (links : Links) (start goal : ℕ) (exclude : List ℕ) (fuel : ℕ)
    (path : List ℕ) (h : (aStar links start goal exclude fuel).1 = some path) :
    path.head? = some start ∧ path.getLast? = some goal ∧
    List.Chain' (fun a b => ∃ w, (b, w) ∈ links a) path ∧
    (∀ x ∈ path, x ∈ exclude → x = start) := by
  rcases fuel with _ | f
  · exact Option.noConfusion h
  · by_cases hsg : start = goal
    · subst hsg
      have hstep : aStarStep links start (aStarInit start exclude) =
          .inl (some [start], { aStarInit start exclude with openL := [] }) := by
        unfold aStarStep aStarInit
        dsimp only
        rw [if_pos rfl, buildPathRev_none rfl]
        rfl
      have hrun : (aStar links start start exclude (f + 1)).1 = some [start] := by
        show (match aStarStep links start (aStarInit start exclude) with
          | .inl r => r
          | .inr st2 => aStarLoop links start f st2).1 = some [start]
        rw [hstep]
      rw [hrun] at h
      have hp : path = [start] := (Option.some.inj h).symm
      subst hp
      exact ⟨rfl, rfl, List.chain'_singleton _, fun x hx _ => List.mem_singleton.mp hx⟩
    · have hstep : aStarStep links goal (aStarInit start exclude) =
          .inr (processNeighbours start 0 (links start)
            { aStarInit start exclude with openL := [], closedL := exclude ++ [start] }) := by
        unfold aStarStep aStarInit
        dsimp only
        rw [if_neg hsg, if_pos rfl]
        rfl
      have hrun : (aStar links start goal exclude (f + 1)).1
          = (aStarLoop links goal f (processNeighbours start 0 (links start)
            { aStarInit start exclude with openL := [], closedL := exclude ++ [start] })).1 := by
        show (match aStarStep links goal (aStarInit start exclude) with
          | .inl r => r
          | .inr st2 => aStarLoop links goal f st2).1 = _
        rw [hstep]
      rw [hrun] at h
      have hpopB : popped (aStarBase start exclude) = [start] := by
        show (exclude ++ [start]).drop exclude.length = [start]
        rw [List.drop_left]
      have invB : AInv links start (aStarBase start exclude) := by
        refine ⟨?_, List.mem_append_right _ (List.mem_singleton_self _), rfl,
          List.nodup_nil, ?_, ?_, ?_, ?_, ?_, ?_, ?_⟩
        · show (exclude ++ [start]).take exclude.length = exclude
          rw [List.take_append_of_le_length (le_refl _), List.take_length]
        · intro x hx; cases hx
        · rw [hpopB]
          intro x hx _
          exact List.mem_singleton.mp hx
        · rw [hpopB]; exact List.nodup_singleton _
        · intro n c hcf; exact Option.noConfusion hcf
        · intro n c hcf; exact absurd hcf (fun hcf => Option.noConfusion hcf)
        · rw [hpopB]
          intro n hn hns
          exact absurd (List.mem_singleton.mp hn) hns
        · intro n hn; cases hn
      have hcurB : start ∈ popped (aStarBase start exclude) := by
        rw [hpopB]; exact List.mem_singleton_self _
      have invC : AInv links start (processNeighbours start 0 (links start)
          (aStarBase start exclude)) :=
        processNeighbours_inv (links start) _ 0 invB hcurB (fun e he => he)
      have hexclC : (processNeighbours start 0 (links start)
          (aStarBase start exclude)).excl = exclude :=
        (processNeighbours_excl_closed _ _ _ _).1
      obtain ⟨w1, w2, w3, w4⟩ := aStarLoop_sound links start goal f _ invC path h
      exact ⟨w1, w2, w3, fun x hx hxe => w4 x hx (by rw [hexclC]; exact hxe)⟩

/-- A three-node path graph used as concrete witness input. -/
def links3 : Links := fun n =>
  if n = 0 then [(1, 1)] else if n = 1 then [(0, 1), (2, 1)] else if n = 2 then [(1, 1)] else []

/-- C5 witness: on the path graph `0 - 1 - 2` with no exclusions, the
search returns `[0, 1, 2]`, and the soundness theorem applies to it. -/
theorem aStar_sound_witness :
    ([0, 1, 2] : List ℕ).head? = some 0 ∧ ([0, 1, 2] : List ℕ).getLast? = some 2 ∧
    List.Chain' (fun a b => ∃ w, (b, w) ∈ links3 a) [0, 1, 2] ∧
    (∀ x ∈ ([0, 1, 2] : List ℕ), x ∈ ([] : List ℕ) → x = 0) :=
  aStar_sound links3 0 2 [] 10 [0, 1, 2] (by decide)

/-! ### Ward subdivision: `create_alleys` and `create_ortho_building` (C8)

ward.py lines 162-281.  Both routines are recursive polygon subdividers
driven by the global `Random`; the embedding threads the random stream as
a function `rs : ℕ → ℚ` of the draw position (each `Random.float()` /
`Random.normal()` component consumes one position, in source order) and
returns the next unread position alongside the result.  Runtime errors
the Python code can raise — the unguarded `min_sq / (Random.float() *
Random.float())` in `create_alleys` (ZeroDivisionError when both draws
are exactly `0.0`) and the `v1 - v0` on `None` in `slice` when the
polygon has no vertices (TypeError) — are modelled as `Except` errors. -/

/-- Python runtime errors reachable in the subdivision code. -/
inductive PyErr where
  | zeroDiv
  | typeErr
deriving DecidableEq, Repr

/-- The exact rational value of the IEEE-754 double `math.pi`. -/
def piF : ℚ := 884279719003555 / 281474976710656

/-- `Point.distance` (point.py), square root abstracted through the
oracle. -/
def distF (O : RO) (a b : Pt) : ℚ :=
  O.sqrtF ((a.x - b.x) * (a.x - b.x) + (a.y - b.y) * (a.y - b.y))

/-- `Point.length` (point.py), square root abstracted through the
oracle. -/
def lenF (O : RO) (a : Pt) : ℚ := O.sqrtF (a.x * a.x + a.y * a.y)

/-- The `find_edge` scan of `create_alleys` (ward.py lines 173-184):
`for_edge` over all edges, keeping the start vertex of the strictly
longest edge seen so far (`v` stays `None` — here `none` — only when the
loop body never fires, i.e. on the empty vertex list, since every
distance exceeds the `-1.0` the running maximum starts at under a
nonnegative square-root oracle; the theorems never need that and treat
`none` by the same base case the source uses). -/
def findLongestV (O : RO) (p : Poly) : Option Pt :=
  ((List.range p.length).foldl
    (fun acc i =>
      if acc.2 < distF O (vAt p i) (vAt p (i + 1)) then
        (some (vAt p i), distF O (vAt p i) (vAt p (i + 1)))
      else acc)
    ((none : Option Pt), (-1 : ℚ))).1

/-- `Cutter.bisect` (cutter.py lines 14-30): interpolate the cut origin on
the edge after `vertex`, rotate the edge direction by `angle` (cosine and
sine through the oracle), and cut along the perpendicular through it. -/
def bisect (O : RO) (p : Poly) (vertex : Pt) (frac angle gap : ℚ) : List Poly :=
  match nextPt p vertex with
  | none => [p]
  | some nv =>
    let p1 := interpPt vertex nv frac
    let d := nv.sub vertex
    let cosb := O.cosF angle
    let sinb := O.sinF angle
    let vx := d.x * cosb - d.y * sinb
    let vy := d.y * cosb + d.x * sinb
    cut O p p1 ⟨p1.x - vy, p1.y + vx⟩ gap

/-- The base result `[poly] if poly.square >= min_sq else []` used by the
three early returns and the empty-buildings fallback of `create_alleys`
(ward.py lines 169-170, 186-187, 199-200, 227). -/
def alleysBase (minSq : ℚ) (p : Poly) : List Poly :=
  if minSq ≤ Polygon.square p then [p] else []

mutual

/-- `Ward.create_alleys` (ward.py lines 162-227).  Draw positions: the
split fraction at `pos`, the angle jitter at `pos + 1`; the per-half loop
is `allHalves` starting at `pos + 2`.  The recursion-depth cap `depth >
20` and the two `v is None or len < 3` early returns reproduce lines
168-170 and 186-187; the bisect gap is `split if split else 0.0`, i.e.
`1` for `True`. -/
def createAlleys (O : RO) (rs : ℕ → ℚ) (minSq gridChaos sizeChaos emptyProb : ℚ)
    (p : Poly) (split : Bool) (depth pos : ℕ) : Except PyErr (List Poly × ℕ) :=
  if _h20 : 20 < depth then
    .ok (alleysBase minSq p, pos)
  else
    match findLongestV O p with
    | none => .ok (alleysBase minSq p, pos)
    | some v =>
      if p.length < 3 then .ok (alleysBase minSq p, pos)
      else
        match allHalves O rs minSq gridChaos sizeChaos emptyProb (depth + 1)
          (bisect O p v ((1 - 4 / 5 * gridChaos) / 2 + rs pos * (4 / 5 * gridChaos))
            ((rs (pos + 1) - 1 / 2) *
              (piF / 6 * gridChaos * (if Polygon.square p < minSq * 4 then 0 else 1)))
            (if split then 1 else 0)) (pos + 2) [] with
        | .error e => .error e
        | .ok (buildings, pos2) =>
          .ok ((if buildings.isEmpty then alleysBase minSq p else buildings), pos2)
termination_by (21 - depth, 0, 0)

/-- The `for half in halves` loop of `create_alleys` (ward.py lines
203-225), carried out at recursion depth `depth1 = depth + 1` of the
caller.  Halves with fewer than three vertices are skipped without
consuming randomness; a half below the fuzzy area threshold (one draw)
is kept unless `Random.bool(empty_prob)` (one draw); otherwise two draws
feed `min_sq / (Random.float() * Random.float())` — a ZeroDivisionError
when the product is zero — and the half is subdivided recursively. -/
def allHalves (O : RO) (rs : ℕ → ℚ) (minSq gridChaos sizeChaos emptyProb : ℚ)
    (depth1 : ℕ) : List Poly → ℕ → List Poly → Except PyErr (List Poly × ℕ)
  | [], pos, buildings => .ok (buildings, pos)
  | half :: restHalves, pos, buildings =>
    if half.length < 3 then
      allHalves O rs minSq gridChaos sizeChaos emptyProb depth1 restHalves pos buildings
    else if Polygon.square half < minSq * O.pow2F (4 * sizeChaos * (rs pos - 1 / 2)) then
      allHalves O rs minSq gridChaos sizeChaos emptyProb depth1 restHalves (pos + 2)
        (if rs (pos + 1) < emptyProb then buildings else buildings ++ [half])
    else if rs (pos + 1) * rs (pos + 2) = 0 then .error .zeroDiv
    else
      match createAlleys O rs minSq gridChaos sizeChaos emptyProb half
        (decide (minSq / (rs (pos + 1) * rs (pos + 2)) < Polygon.square half))
        depth1 (pos + 3) with
      | .error e => .error e
      | .ok (bs, pos2) =>
        allHalves O rs minSq gridChaos sizeChaos emptyProb depth1 restHalves pos2
          (buildings ++ bs)
termination_by halves _ _ => (21 - depth1, 1, halves.length)

end

/-- `Ward._find_longest_edge_vertex` (ward.py lines 278-281):
`poly.min(lambda v: -poly.vector(v).length)` — `Polygon.min` keeps the
first vertex attaining the minimum, `None` on an empty vertex list. -/
def findLongestEdgeVertex (O : RO) (p : Poly) : Option Pt :=
  match p with
  | [] => none
  | v :: rest =>
    some (rest.foldl
      (fun best w =>
        if -(lenF O (vectorOf p w)) < -(lenF O (vectorOf p best)) then w else best) v)

mutual

/-- The inner `slice` of `Ward.create_ortho_building` (ward.py lines
233-262).  The depth cap `depth > 50` returns `[]`; on an empty polygon
`_find_longest_edge_vertex` gives `None`, `poly.next(None)` gives `None`,
and `v1 - v0` raises a TypeError, modelled as `.error .typeErr` (likewise
for the unreachable case of a found vertex with no successor).  One draw
feeds the slice ratio at `pos`; the halves loop starts at `pos + 1`. -/
def orthoSlice (O : RO) (rs : ℕ → ℚ) (minBlockSq fill : ℚ) (c1 c2 : Pt)
    (p : Poly) (depth pos : ℕ) : Except PyErr (List Poly × ℕ) :=
  if _h50 : 50 < depth then .ok ([], pos)
  else
    match findLongestEdgeVertex O p with
    | none => .error .typeErr
    | some v0 =>
      match nextPt p v0 with
      | none => .error .typeErr
      | some v1 =>
        orthoHalves O rs minBlockSq fill c1 c2 (depth + 1)
          (cut O p (interpPt v0 v1 (2 / 5 + rs pos * (1 / 5)))
            ((interpPt v0 v1 (2 / 5 + rs pos * (1 / 5))).add
              (if |scalarQ (v1.sub v0).x (v1.sub v0).y c1.x c1.y| <
                  |scalarQ (v1.sub v0).x (v1.sub v0).y c2.x c2.y| then c1 else c2)) 0)
          (pos + 1) []
termination_by (51 - depth, 0, 0)

/-- The `for half in halves` loop of `slice` (ward.py lines 256-261):
`Random.normal()` consumes three draws, `Random.bool(fill)` one more when
the half is below the block threshold; otherwise the half is sliced
recursively starting at `pos + 3`. -/
def orthoHalves (O : RO) (rs : ℕ → ℚ) (minBlockSq fill : ℚ) (c1 c2 : Pt)
    (depth1 : ℕ) : List Poly → ℕ → List Poly → Except PyErr (List Poly × ℕ)
  | [], pos, buildings => .ok (buildings, pos)
  | half :: restHalves, pos, buildings =>
    if Polygon.square half <
        minBlockSq * O.pow2F ((rs pos + rs (pos + 1) + rs (pos + 2)) / 3 * 2 - 1) then
      orthoHalves O rs minBlockSq fill c1 c2 depth1 restHalves (pos + 4)
        (if rs (pos + 3) < fill then buildings ++ [half] else buildings)
    else
      match orthoSlice O rs minBlockSq fill c1 c2 half depth1 (pos + 3) with
      | .error e => .error e
      | .ok (bs, pos2) =>
        orthoHalves O rs minBlockSq fill c1 c2 depth1 restHalves pos2 (buildings ++ bs)
termination_by halves _ _ => (51 - depth1, 1, halves.length)

end

/-- The bounded retry loop of `create_ortho_building` (ward.py lines
271-276): up to 100 slice passes from depth 0, returning the first
nonempty block list, with `[poly]` as the final fallback. -/
def orthoRetry (O : RO) (rs : ℕ → ℚ) (p : Poly) (minBlockSq fill : ℚ) (c1 c2 : Pt) :
    ℕ → ℕ → Except PyErr (List Poly × ℕ)
  | 0, pos => .ok ([p], pos)
  | k + 1, pos =>
    match orthoSlice O rs minBlockSq fill c1 c2 p 0 pos with
    | .error e => .error e
    | .ok (blocks, pos2) =>
      if 0 < blocks.length then .ok (blocks, pos2)
      else orthoRetry O rs p minBlockSq fill c1 c2 k pos2

/-- `Ward.create_ortho_building` (ward.py lines 229-276): small polygons
are returned whole; otherwise the two slicing directions are the longest
edge vector (`poly.vector(None)` is the zero point on an empty polygon)
and its 90-degree rotation, fed to the retry loop. -/
def createOrtho (O : RO) (rs : ℕ → ℚ) (p : Poly) (minBlockSq fill : ℚ) (pos : ℕ) :
    Except PyErr (List Poly × ℕ) :=
  if Polygon.square p < minBlockSq then .ok ([p], pos)
  else
    let c1 := match findLongestEdgeVertex O p with
      | none => (⟨0, 0⟩ : Pt)
      | some v0 => vectorOf p v0
    orthoRetry O rs p minBlockSq fill c1 c1.rot90 100 pos

/-- The epsilon equality of `Point.__eq__` is reflexive. -/
theorem ptEqB_refl (a : Pt) : ptEqB a a = true := by
  simp only [ptEqB, sub_self, abs_zero, Bool.and_eq_true, decide_eq_true_eq]
  norm_num [ptEps]

/-- `Polygon.index_of` finds a vertex that is in the list (by `ptEqB`
reflexivity). -/
theorem indexOfPt_of_mem {p : Poly} {v : Pt} (h : v ∈ p) : ∃ i, indexOfPt p v = some i := by
  cases hidx : indexOfPt p v with
  | some i => exact ⟨i, rfl⟩
  | none =>
    unfold indexOfPt at hidx
    have hfalse := List.findIdx?_eq_none_iff.mp hidx v h
    rw [ptEqB_refl] at hfalse
    cases hfalse

/-- `Polygon.next` succeeds on a vertex of the polygon. -/
theorem nextPt_of_mem {p : Poly} {v : Pt} (h : v ∈ p) : ∃ nv, nextPt p v = some nv := by
  obtain ⟨i, hi⟩ := indexOfPt_of_mem h
  refine ⟨vAt p (i + 1), ?_⟩
  unfold nextPt
  rw [hi]

/-- The first-minimum fold of `Polygon.min` stays inside any list
containing the seed and the scanned tail. -/
theorem foldl_min_mem (O : RO) (q : Poly) :
    ∀ (rest : List Pt) (acc : Pt) (l : List Pt), acc ∈ l → (∀ w ∈ rest, w ∈ l) →
      rest.foldl (fun best w =>
        if -(lenF O (vectorOf q w)) < -(lenF O (vectorOf q best)) then w else best) acc ∈ l := by
  intro rest
  induction rest with
  | nil => intro acc l ha _; simpa using ha
  | cons w t ih =>
    intro acc l ha hsub
    rw [List.foldl_cons]
    refine ih _ l ?_ (fun x hx => hsub x (List.mem_cons_of_mem _ hx))
    by_cases hc : -(lenF O (vectorOf q w)) < -(lenF O (vectorOf q acc))
    · rw [if_pos hc]; exact hsub w (List.mem_cons_self _ _)
    · rw [if_neg hc]; exact ha

/-- `_find_longest_edge_vertex` returns a vertex of the polygon. -/
theorem findLongestEdgeVertex_mem {O : RO} {p : Poly} {v : Pt}
    (h : findLongestEdgeVertex O p = some v) : v ∈ p := by
  cases p with
  | nil => simp [findLongestEdgeVertex] at h
  | cons a t =>
    have h' : t.foldl (fun best w =>
        if -(lenF O (vectorOf (a :: t) w)) < -(lenF O (vectorOf (a :: t) best)) then w
        else best) a = v := by
      simpa [findLongestEdgeVertex] using h
    rw [← h']
    exact foldl_min_mem O (a :: t) t a (a :: t) (List.mem_cons_self _ _)
      (fun w hw => List.mem_cons_of_mem _ hw)

/-- `_find_longest_edge_vertex` succeeds exactly on nonempty polygons. -/
theorem findLongestEdgeVertex_some (O : RO) {p : Poly} (hp : p ≠ []) :
    ∃ v, findLongestEdgeVertex O p = some v := by
  cases p with
  | nil => exact absurd rfl hp
  | cons a t => exact ⟨_, rfl⟩

/-- When `cut`'s scan finds exactly two crossings, both constructed halves
start with an interpolated cut point and are in particular nonempty. -/
theorem cutPieces_shape {p : Poly} {p1 p2 : Pt} {h1 h2 : Poly} {q1 q2 : Pt} {e1 : ℕ}
    (h : cutPieces p p1 p2 = some (h1, h2, q1, q2, e1)) : h1 ≠ [] ∧ h2 ≠ [] := by
  simp only [cutPieces] at h
  by_cases hc : (cutScanAll p p1 p2).count = 2
  · rw [if_pos hc] at h
    simp only [Option.some.injEq, Prod.mk.injEq] at h
    obtain ⟨hh1, hh2, _⟩ := h
    rw [← hh1, ← hh2]
    exact ⟨List.cons_ne_nil _ _, List.cons_ne_nil _ _⟩
  · rw [if_neg hc] at h
    cases h

/-- Every member of `cut(..., gap=0)` is a nonempty vertex list when the
receiver is nonempty (the fallback is the receiver itself; the two-halves
case produces lists headed by a cut point). -/
theorem cut_zero_ne_nil (O : RO) (p : Poly) (p1 p2 : Pt) (hp : p ≠ []) :
    ∀ q ∈ cut O p p1 p2 0, q ≠ [] := by
  intro q hq
  unfold cut at hq
  cases hpc : cutPieces p p1 p2 with
  | none =>
    rw [hpc] at hq
    simp only [List.mem_singleton] at hq
    rw [hq]
    exact hp
  | some quint =>
    obtain ⟨h1, h2, q1, q2, e1⟩ := quint
    have hsh := cutPieces_shape hpc
    rw [hpc] at hq
    simp only [gt_iff_lt, lt_self_iff_false, if_false] at hq
    split at hq <;>
      · simp only [List.mem_cons, List.mem_singleton, List.not_mem_nil, or_false] at hq
        rcases hq with rfl | rfl
        · first
          | exact hsh.1
          | exact hsh.2
        · first
          | exact hsh.1
          | exact hsh.2

/-- The three early returns of `create_alleys` — depth cap, no longest
edge, degenerate polygon — all produce the base result. -/
theorem createAlleys_base (O : RO) (rs : ℕ → ℚ) (minSq gridChaos sizeChaos emptyProb : ℚ)
    (p : Poly) (split : Bool) (depth pos : ℕ)
    (h : 20 < depth ∨ findLongestV O p = none ∨ p.length < 3) :
    createAlleys O rs minSq gridChaos sizeChaos emptyProb p split depth pos =
      .ok (alleysBase minSq p, pos) := by
  rw [createAlleys]
  by_cases hd : 20 < depth
  · rw [dif_pos hd]
  · rw [dif_neg hd]
    rcases h with hd' | hv | h3
    · exact absurd hd' hd
    · rw [hv]
    · cases hv : findLongestV O p with
      | none => rfl
      | some v =>
        dsimp only
        rw [if_pos h3]

/-- Unfolding `create_alleys` one step in the main case (no early
return): the result is the per-half loop over the bisection halves,
wrapped by the empty-buildings fallback. -/
theorem createAlleys_step (O : RO) (rs : ℕ → ℚ) (minSq gridChaos sizeChaos emptyProb : ℚ)
    (p : Poly) (split : Bool) (depth pos : ℕ) (v : Pt)
    (hd : ¬ 20 < depth) (hv : findLongestV O p = some v) (h3 : ¬ p.length < 3) :
    createAlleys O rs minSq gridChaos sizeChaos emptyProb p split depth pos =
      match allHalves O rs minSq gridChaos sizeChaos emptyProb (depth + 1)
        (bisect O p v ((1 - 4 / 5 * gridChaos) / 2 + rs pos * (4 / 5 * gridChaos))
          ((rs (pos + 1) - 1 / 2) *
            (piF / 6 * gridChaos * (if Polygon.square p < minSq * 4 then 0 else 1)))
          (if split then 1 else 0)) (pos + 2) [] with
      | .error e => .error e
      | .ok (buildings, pos2) =>
        .ok ((if buildings.isEmpty then alleysBase minSq p else buildings), pos2) := by
  conv_lhs => rw [createAlleys]
  rw [dif_neg hd, hv]
  dsimp only
  rw [if_neg h3]

/-- Unfolding `slice` one step in the main case: the result is the
per-half loop over the `cut` halves at depth `depth + 1`. -/
theorem orthoSlice_step (O : RO) (rs : ℕ → ℚ) (minBlockSq fill : ℚ) (c1 c2 : Pt)
    (p : Poly) (depth pos : ℕ) (v0 v1 : Pt)
    (hd : ¬ 50 < depth) (hv0 : findLongestEdgeVertex O p = some v0)
    (hv1 : nextPt p v0 = some v1) :
    orthoSlice O rs minBlockSq fill c1 c2 p depth pos =
      orthoHalves O rs minBlockSq fill c1 c2 (depth + 1)
        (cut O p (interpPt v0 v1 (2 / 5 + rs pos * (1 / 5)))
          ((interpPt v0 v1 (2 / 5 + rs pos * (1 / 5))).add
            (if |scalarQ (v1.sub v0).x (v1.sub v0).y c1.x c1.y| <
                |scalarQ (v1.sub v0).x (v1.sub v0).y c2.x c2.y| then c1 else c2)) 0)
        (pos + 1) [] := by
  conv_lhs => rw [orthoSlice]
  rw [dif_neg hd, hv0]
  dsimp only
  rw [hv1]

/-- If `create_alleys` completes at recursion depth `depth1` for every
polygon, so does its per-half loop at that depth (the loop body only
skips, keeps, or recurses through `create_alleys`, and the divisor
`Random.float() * Random.float()` is nonzero under `hrs`). -/
theorem allHalves_ok_of (O : RO) (rs : ℕ → ℚ) (hrs : ∀ i, rs i ≠ 0)
    (minSq gridChaos sizeChaos emptyProb : ℚ) (depth1 : ℕ)
    (hP : ∀ (p : Poly) (split : Bool) (pos : ℕ),
      ∃ res, createAlleys O rs minSq gridChaos sizeChaos emptyProb p split depth1 pos = .ok res) :
    ∀ (halves : List Poly) (pos : ℕ) (acc : List Poly),
      ∃ res, allHalves O rs minSq gridChaos sizeChaos emptyProb depth1 halves pos acc
        = .ok res := by
  intro halves
  induction halves with
  | nil =>
    intro pos acc
    refine ⟨(acc, pos), ?_⟩
    simp only [allHalves]
  | cons half rest ih =>
    intro pos acc
    by_cases h3 : half.length < 3
    · obtain ⟨res, heq⟩ := ih pos acc
      refine ⟨res, ?_⟩
      simp only [allHalves]
      rw [if_pos h3]
      exact heq
    · by_cases hth : Polygon.square half <
          minSq * O.pow2F (4 * sizeChaos * (rs pos - 1 / 2))
      · obtain ⟨res, heq⟩ := ih (pos + 2)
          (if rs (pos + 1) < emptyProb then acc else acc ++ [half])
        refine ⟨res, ?_⟩
        simp only [allHalves]
        rw [if_neg h3, if_pos hth]
        exact heq
      · have hz : ¬ rs (pos + 1) * rs (pos + 2) = 0 := mul_ne_zero (hrs _) (hrs _)
        obtain ⟨⟨bs, pos2⟩, heqA⟩ := hP half
          (decide (minSq / (rs (pos + 1) * rs (pos + 2)) < Polygon.square half)) (pos + 3)
        obtain ⟨res, heq⟩ := ih pos2 (acc ++ bs)
        refine ⟨res, ?_⟩
        simp only [allHalves]
        rw [if_neg h3, if_neg hth, if_neg hz, heqA]
        exact heq

/-- `create_alleys` and its loop always complete with an `ok` result when
no drawn float is exactly zero; proved by downward induction on the
remaining depth budget (the cap is 20, so budget 21 covers depth 0). -/
theorem alleys_ok_all (O : RO) (rs : ℕ → ℚ) (hrs : ∀ i, rs i ≠ 0)
    (minSq gridChaos sizeChaos emptyProb : ℚ) :
    ∀ n : ℕ,
      (∀ (p : Poly) (split : Bool) (depth pos : ℕ), 21 ≤ depth + n →
        ∃ res, createAlleys O rs minSq gridChaos sizeChaos emptyProb p split depth pos
          = .ok res) ∧
      (∀ (depth1 : ℕ) (halves : List Poly) (pos : ℕ) (acc : List Poly), 21 ≤ depth1 + n →
        ∃ res, allHalves O rs minSq gridChaos sizeChaos emptyProb depth1 halves pos acc
          = .ok res) := by
  intro n
  induction n with
  | zero =>
    have hP : ∀ (p : Poly) (split : Bool) (depth pos : ℕ), 21 ≤ depth + 0 →
        ∃ res, createAlleys O rs minSq gridChaos sizeChaos emptyProb p split depth pos
          = .ok res := by
      intro p split depth pos hdep
      exact ⟨_, createAlleys_base O rs minSq gridChaos sizeChaos emptyProb p split depth pos
        (Or.inl (by omega))⟩
    refine ⟨hP, ?_⟩
    intro depth1 halves pos acc hdep
    exact allHalves_ok_of O rs hrs minSq gridChaos sizeChaos emptyProb depth1
      (fun q sp ps => hP q sp depth1 ps hdep) halves pos acc
  | succ n ihn =>
    have hP : ∀ (p : Poly) (split : Bool) (depth pos : ℕ), 21 ≤ depth + (n + 1) →
        ∃ res, createAlleys O rs minSq gridChaos sizeChaos emptyProb p split depth pos
          = .ok res := by
      intro p split depth pos hdep
      by_cases hd : 20 < depth
      · exact ⟨_, createAlleys_base O rs minSq gridChaos sizeChaos emptyProb p split depth pos
          (Or.inl hd)⟩
      · cases hv : findLongestV O p with
        | none =>
          exact ⟨_, createAlleys_base O rs minSq gridChaos sizeChaos emptyProb p split depth pos
            (Or.inr (Or.inl hv))⟩
        | some v =>
          by_cases h3 : p.length < 3
          · exact ⟨_, createAlleys_base O rs minSq gridChaos sizeChaos emptyProb p split depth
              pos (Or.inr (Or.inr h3))⟩
          · obtain ⟨⟨bs, pos2⟩, heq⟩ := ihn.2 (depth + 1) (bisect O p v _ _ _) (pos + 2) []
              (by omega)
            refine ⟨((if bs.isEmpty then alleysBase minSq p else bs), pos2), ?_⟩
            rw [createAlleys_step O rs minSq gridChaos sizeChaos emptyProb p split depth pos v
              hd hv h3, heq]
    refine ⟨hP, ?_⟩
    intro depth1 halves pos acc hdep
    exact allHalves_ok_of O rs hrs minSq gridChaos sizeChaos emptyProb depth1
      (fun q sp ps => hP q sp depth1 ps (by omega)) halves pos acc

/-- If `slice` completes at depth `depth1` for every nonempty polygon, so
does its per-half loop at that depth on lists of nonempty halves. -/
theorem orthoHalves_ok_of (O : RO) (rs : ℕ → ℚ) (minBlockSq fill : ℚ) (c1 c2 : Pt)
    (depth1 : ℕ)
    (hP : ∀ (p : Poly) (pos : ℕ), p ≠ [] →
      ∃ res, orthoSlice O rs minBlockSq fill c1 c2 p depth1 pos = .ok res) :
    ∀ (halves : List Poly) (pos : ℕ) (acc : List Poly), (∀ q ∈ halves, q ≠ []) →
      ∃ res, orthoHalves O rs minBlockSq fill c1 c2 depth1 halves pos acc = .ok res := by
  intro halves
  induction halves with
  | nil =>
    intro pos acc _
    refine ⟨(acc, pos), ?_⟩
    simp only [orthoHalves]
  | cons half rest ih =>
    intro pos acc hne
    have htail : ∀ q ∈ rest, q ≠ [] := fun q hq => hne q (List.mem_cons_of_mem _ hq)
    by_cases hth : Polygon.square half <
        minBlockSq * O.pow2F ((rs pos + rs (pos + 1) + rs (pos + 2)) / 3 * 2 - 1)
    · obtain ⟨res, heq⟩ := ih (pos + 4)
        (if rs (pos + 3) < fill then acc ++ [half] else acc) htail
      refine ⟨res, ?_⟩
      simp only [orthoHalves]
      rw [if_pos hth]
      exact heq
    · obtain ⟨⟨bs, pos2⟩, heqS⟩ := hP half (pos + 3) (hne half (List.mem_cons_self _ _))
      obtain ⟨res, heq⟩ := ih pos2 (acc ++ bs) htail
      refine ⟨res, ?_⟩
      simp only [orthoHalves]
      rw [if_neg hth, heqS]
      exact heq

/-- `slice` and its loop always complete with an `ok` result on nonempty
polygons; downward induction on the remaining depth budget (the cap is
50, so budget 51 covers depth 0). -/
theorem ortho_ok_all (O : RO) (rs : ℕ → ℚ) (minBlockSq fill : ℚ) (c1 c2 : Pt) :
    ∀ n : ℕ,
      (∀ (p : Poly) (depth pos : ℕ), p ≠ [] → 51 ≤ depth + n →
        ∃ res, orthoSlice O rs minBlockSq fill c1 c2 p depth pos = .ok res) ∧
      (∀ (depth1 : ℕ) (halves : List Poly) (pos : ℕ) (acc : List Poly),
          (∀ q ∈ halves, q ≠ []) → 51 ≤ depth1 + n →
        ∃ res, orthoHalves O rs minBlockSq fill c1 c2 depth1 halves pos acc = .ok res) := by
  intro n
  induction n with
  | zero =>
    have hP : ∀ (p : Poly) (depth pos : ℕ), p ≠ [] → 51 ≤ depth + 0 →
        ∃ res, orthoSlice O rs minBlockSq fill c1 c2 p depth pos = .ok res := by
      intro p depth pos _ hdep
      refine ⟨([], pos), ?_⟩
      rw [orthoSlice, dif_pos (by omega : 50 < depth)]
    refine ⟨hP, ?_⟩
    intro depth1 halves pos acc hne hdep
    exact orthoHalves_ok_of O rs minBlockSq fill c1 c2 depth1
      (fun q ps hq => hP q depth1 ps hq hdep) halves pos acc hne
  | succ n ihn =>
    have hP : ∀ (p : Poly) (depth pos : ℕ), p ≠ [] → 51 ≤ depth + (n + 1) →
        ∃ res, orthoSlice O rs minBlockSq fill c1 c2 p depth pos = .ok res := by
      intro p depth pos hp hdep
      by_cases hd : 50 < depth
      · refine ⟨([], pos), ?_⟩
        rw [orthoSlice, dif_pos hd]
      · obtain ⟨v0, hv0⟩ := findLongestEdgeVertex_some O hp
        obtain ⟨v1, hv1⟩ := nextPt_of_mem (findLongestEdgeVertex_mem hv0)
        obtain ⟨res, heq⟩ := ihn.2 (depth + 1) (cut O p _ _ 0) (pos + 1) []
          (cut_zero_ne_nil O p _ _ hp) (by omega)
        refine ⟨res, ?_⟩
        rw [orthoSlice_step O rs minBlockSq fill c1 c2 p depth pos v0 v1 hd hv0 hv1]
        exact heq
    refine ⟨hP, ?_⟩
    intro depth1 halves pos acc hne hdep
    exact orthoHalves_ok_of O rs minBlockSq fill c1 c2 depth1
      (fun q ps hq => hP q depth1 ps hq (by omega)) halves pos acc hne

/-- The 100-attempt retry loop of `create_ortho_building` always completes
on a nonempty polygon, for any retry budget. -/
theorem orthoRetry_ok (O : RO) (rs : ℕ → ℚ) (p : Poly) (minBlockSq fill : ℚ) (c1 c2 : Pt)
    (hp : p ≠ []) :
    ∀ (k pos : ℕ), ∃ res, orthoRetry O rs p minBlockSq fill c1 c2 k pos = .ok res := by
  intro k
  induction k with
  | zero =>
    intro pos
    refine ⟨([p], pos), ?_⟩
    simp only [orthoRetry]
  | succ k ih =>
    intro pos
    obtain ⟨⟨blocks, pos2⟩, heqS⟩ :=
      (ortho_ok_all O rs minBlockSq fill c1 c2 51).1 p 0 pos hp (by omega)
    by_cases hb : 0 < blocks.length
    · refine ⟨(blocks, pos2), ?_⟩
      simp only [orthoRetry]
      rw [heqS]
      dsimp only
      rw [if_pos hb]
    · obtain ⟨res, heq⟩ := ih pos2
      refine ⟨res, ?_⟩
      simp only [orthoRetry]
      rw [heqS]
      dsimp only
      rw [if_neg hb]
      exact heq

/-- `create_ortho_building` always completes with an `ok` result on a
nonempty polygon. -/
theorem createOrtho_ok (O : RO) (rs : ℕ → ℚ) (p : Poly) (minBlockSq fill : ℚ) (pos : ℕ)
    (hp : p ≠ []) : ∃ res, createOrtho O rs p minBlockSq fill pos = .ok res := by
  unfold createOrtho
  by_cases hsq : Polygon.square p < minBlockSq
  · rw [if_pos hsq]
    exact ⟨([p], pos), rfl⟩
  · rw [if_neg hsq]
    obtain ⟨res, heq⟩ := orthoRetry_ok O rs p minBlockSq fill _ _ hp 100 pos
    exact ⟨res, heq⟩

/-- A random stream that never draws an exact zero. -/
def rsHalf : ℕ → ℚ := fun _ => 1 / 2

/-- The all-zero random stream (every `Random.float()` returns exactly
`0.0`, a value in the generator's documented `[0, 1)` range). -/
def rs0 : ℕ → ℚ := fun _ => 0

/-- **C8** Building-subdivision termination and the depth caps.  (1)
`create_alleys` at depth above 20 returns immediately with the base
result, and (2) `slice` at depth above 50 returns the empty list, for
every oracle, stream, parameters and polygon — the recursion can never
proceed past the caps, whatever the split ratios and angles are.
Moreover each call completes with a result (rather than an uncaught
runtime error): (3) `create_alleys` whenever no drawn float is exactly
zero, and (4) `create_ortho_building` whenever the polygon has at least
one vertex. -/
theorem subdivision_depth_capped :
    (∀ (O : RO) (rs : ℕ → ℚ) (minSq gridChaos sizeChaos emptyProb : ℚ)
        (p : Poly) (split : Bool) (depth pos : ℕ), 20 < depth →
      createAlleys O rs minSq gridChaos sizeChaos emptyProb p split depth pos =
        .ok (alleysBase minSq p, pos)) ∧
    (∀ (O : RO) (rs : ℕ → ℚ) (minBlockSq fill : ℚ) (c1 c2 : Pt) (p : Poly)
        (depth pos : ℕ), 50 < depth →
      orthoSlice O rs minBlockSq fill c1 c2 p depth pos = .ok ([], pos)) ∧
    (∀ (O : RO) (rs : ℕ → ℚ), (∀ i, rs i ≠ 0) →
      ∀ (minSq gridChaos sizeChaos emptyProb : ℚ) (p : Poly) (split : Bool) (depth pos : ℕ),
      ∃ res, createAlleys O rs minSq gridChaos sizeChaos emptyProb p split depth pos
        = .ok res) ∧
    (∀ (O : RO) (rs : ℕ → ℚ) (minBlockSq fill : ℚ) (p : Poly) (pos : ℕ), p ≠ [] →
      ∃ res, createOrtho O rs p minBlockSq fill pos = .ok res) := by
  refine ⟨?_, ?_, ?_, ?_⟩
  · intro O rs minSq gridChaos sizeChaos emptyProb p split depth pos h
    exact createAlleys_base O rs minSq gridChaos sizeChaos emptyProb p split depth pos
      (Or.inl h)
  · intro O rs minBlockSq fill c1 c2 p depth pos h
    rw [orthoSlice, dif_pos h]
  · intro O rs hrs minSq gridChaos sizeChaos emptyProb p split depth pos
    exact (alleys_ok_all O rs hrs minSq gridChaos sizeChaos emptyProb 21).1 p split depth pos
      (by omega)
  · intro O rs minBlockSq fill p pos hp
    exact createOrtho_ok O rs p minBlockSq fill pos hp

/-- C8 witness: the theorem applied at the unit square, depth 21 (alleys
cap), depth 51 (slice cap), and depth 0 with the never-zero stream. -/
theorem subdivision_depth_capped_witness :
    createAlleys roId rsHalf 0 0 0 0 sqPoly true 21 0 = .ok ([sqPoly], 0) ∧
    orthoSlice roId rsHalf 0 (1 / 2) ⟨1, 0⟩ ⟨0, 1⟩ sqPoly 51 0 = .ok ([], 0) ∧
    (∃ res, createAlleys roId rsHalf 0 0 0 0 sqPoly true 0 0 = .ok res) ∧
    (∃ res, createOrtho roId rsHalf sqPoly 0 (1 / 2) 0 = .ok res) := by
  refine ⟨?_, ?_, ?_, ?_⟩
  · rw [subdivision_depth_capped.1 roId rsHalf 0 0 0 0 sqPoly true 21 0 (by omega)]
    rw [show alleysBase 0 sqPoly = [sqPoly] from by decide]
  · exact subdivision_depth_capped.2.1 roId rsHalf 0 (1 / 2) ⟨1, 0⟩ ⟨0, 1⟩ sqPoly 51 0
      (by omega)
  · exact subdivision_depth_capped.2.2.1 roId rsHalf (fun i => by norm_num [rsHalf]) 0 0 0 0
      sqPoly true 0 0
  · exact subdivision_depth_capped.2.2.2 roId rsHalf 0 (1 / 2) sqPoly 0 (by decide)

/-- The error branch of the per-half loop: a half with at least three
vertices, at or above the fuzzy area threshold, whose two split draws
multiply to zero, raises the ZeroDivisionError of
`min_sq / (Random.float() * Random.float())`. -/
theorem allHalves_zeroDiv (O : RO) (rs : ℕ → ℚ) (minSq gridChaos sizeChaos emptyProb : ℚ)
    (depth1 : ℕ) (half : Poly) (restHalves : List Poly) (pos : ℕ) (acc : List Poly)
    (h3 : ¬ half.length < 3)
    (hth : ¬ Polygon.square half < minSq * O.pow2F (4 * sizeChaos * (rs pos - 1 / 2)))
    (hz : rs (pos + 1) * rs (pos + 2) = 0) :
    allHalves O rs minSq gridChaos sizeChaos emptyProb depth1 (half :: restHalves) pos acc
      = .error .zeroDiv := by
  simp only [allHalves]
  rw [if_neg h3, if_neg hth, if_pos hz]

/-- `slice` on the empty polygon at depth 0: `_find_longest_edge_vertex`
returns `None` and the `v1 - v0` TypeError fires. -/
theorem orthoSlice_nil (O : RO) (rs : ℕ → ℚ) (minBlockSq fill : ℚ) (c1 c2 : Pt) (pos : ℕ) :
    orthoSlice O rs minBlockSq fill c1 c2 [] 0 pos = .error .typeErr := by
  rw [orthoSlice, dif_neg (by omega : ¬ 50 < 0)]
  rfl

/-- The retry loop propagates a `slice` error. -/
theorem orthoRetry_err (O : RO) (rs : ℕ → ℚ) (p : Poly) (minBlockSq fill : ℚ) (c1 c2 : Pt)
    (k pos : ℕ) (e : PyErr)
    (h : orthoSlice O rs minBlockSq fill c1 c2 p 0 pos = .error e) :
    orthoRetry O rs p minBlockSq fill c1 c2 (k + 1) pos = .error e := by
  simp only [orthoRetry]
  rw [h]

/-- C8 counterexample: "each call returns a (possibly empty) list of
building polygons" is false.  With every `Random.float()` draw equal to
`0.0` (a value in the generator's `[0, 1)` range) and zero chaos
parameters — so the only angle ever passed to `math.cos`/`math.sin` is
`0`, where the oracle `roId` agrees with the real functions —
`create_alleys` on the unit square reaches
`min_sq / (Random.float() * Random.float())` (ward.py line 214) with a
zero product and raises an uncaught ZeroDivisionError; and
`create_ortho_building` on a polygon with no vertices (area `0.0 <
min_block_sq` fails for `min_block_sq = 0`) reaches `v = v1 - v0` in
`slice` (ward.py line 240) with `v1 = v0 = None` and raises a TypeError. -/
theorem subdivision_runtime_errors :
    createAlleys roId rs0 0 0 0 0 sqPoly true 0 0 = .error .zeroDiv ∧
    createOrtho roId rs0 [] 0 (1 / 2) 0 = .error .typeErr := by
  constructor
  · rw [createAlleys_step roId rs0 0 0 0 0 sqPoly true 0 0 ⟨0, 0⟩ (by omega) (by decide)
      (by decide)]
    rw [show bisect roId sqPoly ⟨0, 0⟩ ((1 - 4 / 5 * (0 : ℚ)) / 2 + rs0 0 * (4 / 5 * 0))
        ((rs0 (0 + 1) - 1 / 2) *
          (piF / 6 * 0 * (if Polygon.square sqPoly < 0 * 4 then 0 else 1)))
        (if true then 1 else 0) = [sqPoly] from by decide]
    rw [allHalves_zeroDiv roId rs0 0 0 0 0 (0 + 1) sqPoly [] (0 + 2) [] (by decide)
      (by decide) (by decide)]
  · unfold createOrtho
    rw [if_neg (by decide : ¬ Polygon.square [] < (0 : ℚ))]
    exact orthoRetry_err roId rs0 [] 0 (1 / 2) _ _ 99 0 .typeErr
      (orthoSlice_nil roId rs0 0 (1 / 2) _ _ 0)

end

end TownGen
